import Mathlib

/-!
# OptionParser: a shallow embedding of `option_parser.hpp`

The header declares typed command-line options (`OptionBase`, `Option<T>`) and
a registry (`OptionParser`) whose `Parse` scans `argv` once, left to right.

Conventions of the embedding:

* `std::string` is `List Char` (abbreviated `Str`); one `Char` is one C++ `char`.
* A thrown C++ exception is a value of `Error`, one constructor per `throw`
  statement of the header.
* A member function that mutates `*this` and may throw returns the object as it
  is left together with the exception in flight, if any.
* A pointer to a registered descriptor is its position in `options`.
* A pointer to a variable of the caller (`var_ptr`) is an address, a natural
  number; `none` is `nullptr`. The variables of the caller are a `Memory`, which
  gives for an address the type and content of the variable stored there. Two
  descriptors bound to one address share that variable.
-/

namespace OptionParser

/-- The `std::string` of the source, as its sequence of characters. -/
abbrev Str := List Char

/-- The `enum class OptionArg`. -/
inductive OptionArg
  | OPT
  | REQ
  | NONE
deriving DecidableEq, Repr

/-- The exceptions thrown by the header, one constructor per `throw`. All are
`std::invalid_argument`, except the two from `Default`, which are
`std::logic_error`. -/
inductive Error
  /-- Thrown by the constructor: `"An option must have at least one name."`. -/
  | noNames
  /-- Thrown by the constructor: `"Option: " + name + " -> invalid option name."`. -/
  | invalidName (name : Str)
  /-- Thrown by `Default` on a `REQ` option ("option that requires a value
  cannot have a default value"), with the longest name in the message. -/
  | defaultOnReq (longest : Str)
  /-- Thrown by `Default` on a `NONE` option ("option that takes no value
  cannot have a default value"), with the longest name in the message. -/
  | defaultOnNone (longest : Str)
  /-- Thrown by `ParseValue`:
  `"Option: " + longest + " failed to parse option argument. (" + strVal + ")"`. -/
  | parseFailed (longest strVal : Str)
  /-- Thrown by `ParseValue`:
  `"Option: " + longest + " invalid argument provided, check failed. (" + strVal + ")"`. -/
  | checkFailed (longest strVal : Str)
  /-- Thrown by `GetOptionByName`: `"Option: " + name + " -> non existent."`. -/
  | nonExistent (name : Str)
deriving DecidableEq, Repr

/-- True for the errors whose C++ type is `std::invalid_argument`. -/
def Error.isInvalidArgument : Error → Bool
  | .defaultOnReq _ => false
  | .defaultOnNone _ => false
  | _ => true

/-- The data members of `class OptionBase`. -/
structure OptionBase where
  names : List Str
  description : Str
  arg : OptionArg
  is_set : Bool

/-- The C library's `iswalnum` in the default "C" locale (the program never
calls `setlocale`): true exactly for the ASCII letters and digits. -/
def iswalnum (c : Char) : Bool := c.isAlphanum

/-- The member `OptionBase::IsValidOptName`: every character is alphanumeric or `'-'`. -/
def IsValidOptName (name : Str) : Bool :=
  name.all (fun c => !(!iswalnum c && c != '-'))

/-- The constructor `OptionBase::OptionBase(nmes, arg, desc)`. -/
def OptionBase.new (nmes : List Str) (arg : OptionArg) (desc : Str) :
    Except Error OptionBase :=
  if nmes.length == 0 then .error .noNames
  else
    match nmes.find? (fun it => !IsValidOptName it) with
    | some it => .error (.invalidName it)
    | none => .ok { names := nmes, description := desc, arg := arg, is_set := false }

/-- The member `OptionBase::GetLongestName`: the first name of maximal length (`""` when
there is none). -/
def OptionBase.GetLongestName (o : OptionBase) : Str :=
  o.names.foldl (fun longest it => if it.length > longest.length then it else longest) []

/-- The class template `Option<T>` (Lean's own `Option` keeps its name):
`OptionBase` plus `value`, `var_ptr` and `check`. -/
structure TypedOption (T : Type) extends OptionBase where
  value : T
  var_ptr : Option Nat
  check : Option (T → Bool)

/-- A variable of the caller: its type and its content. -/
structure Cell where
  T : Type
  val : T

/-- The variables of the caller that pointers may point to, by address. -/
abbrev Memory := Nat → Option Cell

/-- The assignment `*ptr = val`: the variable at `ptr` now holds `c`, every
other variable is as before. -/
def Memory.write (mem : Memory) (ptr : Nat) (c : Cell) : Memory :=
  fun a => if a = ptr then some c else mem a

/-- The statement `if (var_ptr != nullptr) *var_ptr = value;`. -/
def Memory.store (mem : Memory) (var_ptr : Option Nat) (c : Cell) : Memory :=
  match var_ptr with
  | some ptr => mem.write ptr c
  | none => mem

/-- The constructor `Option<T>::Option(nmes, arg, desc)`. The member `value` is
left uninitialised by the source; `init` stands for whatever it holds. -/
def TypedOption.new {T : Type} (init : T) (nmes : List Str) (arg : OptionArg)
    (desc : Str) : Except Error (TypedOption T) :=
  match OptionBase.new nmes arg desc with
  | .error e => .error e
  | .ok b => .ok { toOptionBase := b, value := init, var_ptr := none, check := none }

/-- The member `Option<T>::Default(defaultVal)`: throws `std::logic_error` for
an option of arity `REQ` or `NONE`; otherwise it stores the default in `value`
and returns `*this` by value. The first component is the object as the call
leaves it, the second the exception thrown or the copy returned. -/
def TypedOption.Default {T : Type} (o : TypedOption T) (defaultVal : T) :
    TypedOption T × Except Error (TypedOption T) :=
  if o.arg == OptionArg.REQ then (o, .error (.defaultOnReq o.GetLongestName))
  else if o.arg == OptionArg.NONE then (o, .error (.defaultOnNone o.GetLongestName))
  else ({ o with value := defaultVal }, .ok { o with value := defaultVal })

/-- The member `Option<T>::Bind(ptr)`: the pointer is recorded, nothing is
written through it. -/
def TypedOption.Bind {T : Type} (o : TypedOption T) (ptr : Nat) : TypedOption T :=
  { o with var_ptr := some ptr }

/-- The member `Option<T>::Check(func)`. -/
def TypedOption.Check {T : Type} (o : TypedOption T) (func : T → Bool) : TypedOption T :=
  { o with check := some func }

/-- The member `Option<T>::Value()`. -/
def TypedOption.Value {T : Type} (o : TypedOption T) : T := o.value

/-- The member `Option<T>::ParseValue(strVal)`. `extract strVal` is the stream extraction
`std::stringstream ss(strVal); ss >> val;` for the type `T`: `none` when
`ss.fail()`, otherwise the extracted `val`. Returns the descriptor and the
memory as the call leaves them, and the exception thrown, if any. -/
def TypedOption.ParseValue {T : Type} (extract : Str → Option T) (o : TypedOption T)
    (mem : Memory) (strVal : Str) : (TypedOption T × Memory) × Option Error :=
  match extract strVal with
  | none => ((o, mem), some (.parseFailed o.GetLongestName strVal))
  | some val =>
    if (match o.check with
        | some check => !check val
        | none => false) then
      ((o, mem), some (.checkFailed o.GetLongestName strVal))
    else
      (({ o with value := val, is_set := true }, mem.store o.var_ptr ⟨T, val⟩), none)

/-- What an `OptionBase*` of the registry points to: an `Option<T>` object for
some `T`, with the stream extraction of that `T` (the virtual `ParseValue`). -/
structure Registered where
  T : Type
  extract : Str → Option T
  opt : TypedOption T

/-- The virtual call `ob->ParseValue(strVal)`. -/
def Registered.ParseValue (ob : Registered) (mem : Memory) (strVal : Str) :
    (Registered × Memory) × Option Error :=
  (({ ob with opt := (ob.opt.ParseValue ob.extract mem strVal).1.1 },
    (ob.opt.ParseValue ob.extract mem strVal).1.2),
   (ob.opt.ParseValue ob.extract mem strVal).2)

/-- The member `OptionParser::AddOption`: `options.push_back(opt)`. -/
def AddOption (options : List Registered) (opt : Registered) : List Registered :=
  options ++ [opt]

/-- The search loop of `OptionParser::GetOptionByName`, with `k` the position of
the head of the list in the registry. -/
def findByName (name : Str) : List Registered → Nat → Option (Nat × Registered)
  | [], _ => none
  | ob :: rest, k =>
    if ob.opt.names.any (fun n => n == name) then some (k, ob)
    else findByName name rest (k + 1)

/-- The member `OptionParser::GetOptionByName(name)`: the pointer returned is the position
of the descriptor in `options`, paired with the descriptor it points to. -/
def GetOptionByName (options : List Registered) (name : Str) :
    Except Error (Nat × Registered) :=
  match findByName name options 0 with
  | some found => .ok found
  | none => .error (.nonExistent name)

/-- How a call of `OptionParser::Parse` ends. -/
inductive Exit
  /-- The loop ran to the end of `argv` or met the token `--`. -/
  | returned
  /-- An exception left `Parse`. -/
  | thrown (e : Error)
  /-- The statement `argv[++i]` read `argv[argc]`, the null pointer that ends
  the argument vector, and converted it to `std::string`: undefined behaviour. -/
  | nullArg
deriving DecidableEq, Repr

/-- The outcome of `Parse`: how it ended, and the descriptors and the variables
of the caller as it left them. -/
structure ParseResult where
  exit : Exit
  options : List Registered
  mem : Memory

/-- How one iteration of the `for` loop of `Parse` ends. -/
inductive Flow
  /-- The iteration ended with `i` unchanged: the loop goes on at `i + 1`. -/
  | next (options : List Registered) (mem : Memory)
  /-- The iteration ran `argv[++i]`: the loop goes on at `i + 2`. -/
  | skip (options : List Registered) (mem : Memory)
  /-- The iteration ran `break`. -/
  | stop (options : List Registered) (mem : Memory)
  | thrown (e : Error) (options : List Registered) (mem : Memory)
  | nullArg (options : List Registered) (mem : Memory)

/-- The call `opt->ParseValue(strVal)` through the pointer `(p, ob)`: the
descriptor at position `p` is replaced by what the call leaves. -/
def callParseValue (options : List Registered) (mem : Memory) (p : Nat) (ob : Registered)
    (strVal : Str) : (List Registered × Memory) × Option Error :=
  ((options.set p (ob.ParseValue mem strVal).1.1, (ob.ParseValue mem strVal).1.2),
   (ob.ParseValue mem strVal).2)

/-- The statement `GetOptionByName(name)->ParseValue(strVal);`. -/
def lookupParseValue (options : List Registered) (mem : Memory) (name strVal : Str) :
    (List Registered × Memory) × Option Error :=
  match GetOptionByName options name with
  | .error e => ((options, mem), some e)
  | .ok (p, ob) => callParseValue options mem p ob strVal

/-- The inner loop `for (j = 0; j < key.size(); j++)` of the clustered short
form, over the characters of `key` still to visit. -/
def clusterLoop (options : List Registered) (mem : Memory) :
    Str → (List Registered × Memory) × Option Error
  | [] => ((options, mem), none)
  | c :: rest =>
    match lookupParseValue options mem [c] [] with
    | ((options, mem), some e) => ((options, mem), some e)
    | ((options, mem), none) => clusterLoop options mem rest

/-- The body of the `for` loop of `Parse` for `key = argv[i]`; `nextArg` is
`argv[i + 1]`, or `none` when `i + 1 == argc` (there `argv[i + 1]` is the null
pointer). -/
def parseStep (options : List Registered) (mem : Memory) (key : Str)
    (nextArg : Option Str) : Flow :=
  if key.length == 1 then .next options mem
  else if key == ['-', '-'] then .stop options mem
  else if key.headD '\x00' == '-' then
    if key.getD 1 '\x00' == '-' then
      -- two hyphens, multi-letter options
      let key := key.drop 2
      -- `index = key.find('=') != std::string::npos`: the comparison binds
      -- tighter than the assignment, so `index` is 1 or 0
      let index : Nat := if key.contains '=' then 1 else 0
      if index != 0 then
        let val := key.drop index
        let key := key.take index
        match lookupParseValue options mem key val with
        | ((options, mem), some e) => .thrown e options mem
        | ((options, mem), none) => .next options mem
      else
        match GetOptionByName options key with
        | .error e => .thrown e options mem
        | .ok (p, opt) =>
          if opt.opt.arg != OptionArg.NONE then
            match nextArg with
            | none => .nullArg options mem
            | some val =>
              match callParseValue options mem p opt val with
              | ((options, mem), some e) => .thrown e options mem
              | ((options, mem), none) =>
                match lookupParseValue options mem key val with
                | ((options, mem), some e) => .thrown e options mem
                | ((options, mem), none) => .skip options mem
          else
            match callParseValue options mem p opt [] with
            | ((options, mem), some e) => .thrown e options mem
            | ((options, mem), none) =>
              match lookupParseValue options mem key [] with
              | ((options, mem), some e) => .thrown e options mem
              | ((options, mem), none) => .next options mem
    else
      -- one hyphen delimiter, one-letter option/s
      let key := key.drop 1
      if key.length > 1 then
        match GetOptionByName options [key.headD '\x00'] with
        | .error e => .thrown e options mem
        | .ok (p, opt) =>
          if opt.opt.arg == OptionArg.REQ then
            match callParseValue options mem p opt (key.drop 1) with
            | ((options, mem), some e) => .thrown e options mem
            | ((options, mem), none) => .next options mem
          else
            match clusterLoop options mem key with
            | ((options, mem), some e) => .thrown e options mem
            | ((options, mem), none) => .next options mem
      else
        -- single one-letter option: the lookup is sequenced before `argv[++i]`
        match GetOptionByName options key with
        | .error e => .thrown e options mem
        | .ok (p, opt) =>
          match nextArg with
          | none => .nullArg options mem
          | some val =>
            match callParseValue options mem p opt val with
            | ((options, mem), some e) => .thrown e options mem
            | ((options, mem), none) => .skip options mem
  else .next options mem

/-- The `for` loop of `Parse` over the tokens `argv[i], ..., argv[argc - 1]`
still ahead. -/
def parseLoop : List Registered → Memory → List Str → ParseResult
  | options, mem, [] => ⟨.returned, options, mem⟩
  | options, mem, [key] =>
    match parseStep options mem key none with
    | .next options mem => ⟨.returned, options, mem⟩
    | .skip options mem => ⟨.returned, options, mem⟩
    | .stop options mem => ⟨.returned, options, mem⟩
    | .thrown e options mem => ⟨.thrown e, options, mem⟩
    | .nullArg options mem => ⟨.nullArg, options, mem⟩
  | options, mem, key :: val :: rest =>
    match parseStep options mem key (some val) with
    | .next options mem => parseLoop options mem (val :: rest)
    | .skip options mem => parseLoop options mem rest
    | .stop options mem => ⟨.returned, options, mem⟩
    | .thrown e options mem => ⟨.thrown e, options, mem⟩
    | .nullArg options mem => ⟨.nullArg, options, mem⟩

/-- The member `OptionParser::Parse(argc, argv)` with `argv` the `argc` tokens
of the argument vector: `argv[0]`, the executable name, is skipped. `mem` holds
the variables of the caller when the call is made. -/
def Parse (options : List Registered) (mem : Memory) (argv : List Str) : ParseResult :=
  parseLoop options mem (argv.drop 1)

/-- The C library's `isspace` in the "C" locale. -/
def isspace (c : Char) : Bool :=
  c == ' ' || c == '\t' || c == '\n' || c == '\x0b' || c == '\x0c' || c == '\r'

/-- The value of a run of decimal digits. -/
def digitsValue (ds : List Char) : Nat :=
  ds.foldl (fun acc d => 10 * acc + (d.toNat - '0'.toNat)) 0

/-- The largest `int` (32 bits). -/
def INT_MAX : Int := 2147483647

/-- The smallest `int` (32 bits). -/
def INT_MIN : Int := -2147483648

/-- The optional sign at the head of a number: whether it is `-`, and the text
after it. -/
def readSign : Str → Bool × Str
  | '-' :: t => (true, t)
  | '+' :: t => (false, t)
  | s => (false, s)

/-- The extraction `ss >> val` for `T = int`, as the C++ standard library
defines it for a default-constructed stream (`skipws` and `dec` set, "C"
locale): leading white space is skipped, an optional sign and the longest run
of decimal digits are read, and the rest of the text is left in the stream.
`ss.fail()` holds when no digit was read or the number does not fit an `int`. -/
def extractInt (strVal : Str) : Option Int :=
  let signed := readSign (strVal.dropWhile isspace)
  let ds := signed.2.takeWhile Char.isDigit
  if ds.isEmpty then none
  else
    let n : Int := if signed.1 then -(digitsValue ds : Int) else (digitsValue ds : Int)
    if INT_MIN ≤ n ∧ n ≤ INT_MAX then some n else none

/-- The extraction `ss >> val` for `T = std::string`: leading white space is
skipped and the characters up to the next white space are read; `ss.fail()`
holds when no character was read. -/
def extractString (strVal : Str) : Option Str :=
  let w := (strVal.dropWhile isspace).takeWhile (fun c => !isspace c)
  if w.isEmpty then none else some w

/-- An `Option<int>` object seen through an `OptionBase*`. -/
def Registered.ofInt (o : TypedOption Int) : Registered := ⟨Int, extractInt, o⟩

/-- An `Option<std::string>` object seen through an `OptionBase*`. -/
def Registered.ofString (o : TypedOption Str) : Registered := ⟨Str, extractString, o⟩

/-- The descriptor `ob` as the success path of `ParseValue` leaves it once it
has extracted `v`: `value = v` and `is_set = true`. -/
def Registered.withValue (ob : Registered) (v : ob.T) : Registered :=
  { ob with opt := { ob.opt with value := v, is_set := true } }

/-- The memory as the success path of `ParseValue` on `ob` leaves it once it
has extracted `v`: the variable `ob` is bound to, if there is one, holds `v`. -/
def Registered.writeThrough (ob : Registered) (mem : Memory) (v : ob.T) : Memory :=
  mem.store ob.opt.var_ptr ⟨ob.T, v⟩

/-! ## Specification-side vocabulary and concrete descriptors -/

/-- Spec-side: the characters the specification allows in an alias,
`[A-Za-z0-9-]`, by character code. -/
def AllowedNameChar (c : Char) : Prop :=
  (65 ≤ c.toNat ∧ c.toNat ≤ 90) ∨ (97 ≤ c.toNat ∧ c.toNat ≤ 122) ∨
    (48 ≤ c.toNat ∧ c.toNat ≤ 57) ∨ c = '-'

/-- Spec-side: the digits of a decimal integer literal, after its optional sign. -/
def literalDigits : Str → Str
  | '-' :: t => t
  | '+' :: t => t
  | s => s

/-- Spec-side: `s` is a decimal integer literal, an optional sign followed by
one or more decimal digits and nothing else. -/
def IsDecimalLiteral (s : Str) : Bool :=
  !(literalDigits s).isEmpty && (literalDigits s).all Char.isDigit

/-- Spec-side: the integer a decimal literal denotes. -/
def literalValue : Str → Int
  | '-' :: t => -(digitsValue t : Int)
  | '+' :: t => (digitsValue t : Int)
  | s => (digitsValue s : Int)

/-- The object `Option<int>({name}, arg, "desc")` right after construction, with
`value` holding 0. -/
def intOption (name : Str) (arg : OptionArg) : TypedOption Int :=
  { names := [name], description := "desc".toList, arg := arg, is_set := false,
    value := 0, var_ptr := none, check := none }

/-- The object `Option<std::string>({name}, arg, "desc")` right after
construction. -/
def stringOption (name : Str) (arg : OptionArg) : TypedOption Str :=
  { names := [name], description := "desc".toList, arg := arg, is_set := false,
    value := [], var_ptr := none, check := none }

/-- A validator `bool f(int val)` accepting the values below 5. -/
def belowFive (val : Int) : Bool := decide (val < 5)

/-- A caller with no variable any option is bound to. -/
def noVariables : Memory := fun _ => none

/-- A caller with one variable, `int x = 0;`, at address 0. -/
def intAtZero : Memory := fun a => if a = 0 then some ⟨Int, (0 : Int)⟩ else none

/-- Spec-side: what a parse pass may make of a descriptor: leave it as it was,
or leave it as a successful `ParseValue` does for some value `v`. -/
def Registered.ParsedFrom (before after : Registered) : Prop :=
  after = before ∨ ∃ v : before.T, after = before.withValue v

/-- The registry as an iteration of the loop leaves it, however it ends. -/
def Flow.state : Flow → List Registered
  | .next options _ => options
  | .skip options _ => options
  | .stop options _ => options
  | .thrown _ options _ => options
  | .nullArg options _ => options

/-- The variables of the caller as an iteration of the loop leaves them,
however it ends. -/
def Flow.memory : Flow → Memory
  | .next _ mem => mem
  | .skip _ mem => mem
  | .stop _ mem => mem
  | .thrown _ _ mem => mem
  | .nullArg _ mem => mem

/-- The registry and the memory as the loop of `Parse` finds them when it comes
to the token at position `k` of the tokens still ahead, to classify it (`k` may
be the length of the list: the loop came to its end). It is `none` when the
loop never stands there: it ended before, or the token there was consumed as
the value of the option before it. -/
def stateAt (options : List Registered) (mem : Memory) :
    List Str → Nat → Option (List Registered × Memory)
  | _, 0 => some (options, mem)
  | [], _ + 1 => none
  | key :: rest, k + 1 =>
    match parseStep options mem key rest.head? with
    | .next options mem => stateAt options mem rest k
    | .skip options mem =>
      match k with
      | 0 => none
      | k + 1 => stateAt options mem rest.tail k
    | _ => none


/-! ## Construction -/

theorem iswalnum_or_hyphen_iff (c : Char) :
    (!(!iswalnum c && c != '-')) = true ↔ AllowedNameChar c := by
  unfold AllowedNameChar iswalnum Char.isAlphanum Char.isAlpha Char.isUpper Char.isLower
    Char.isDigit
  simp only [Char.toNat, Bool.not_and, Bool.not_not, Bool.or_eq_true, Bool.and_eq_true,
    decide_eq_true_eq, bne_iff_ne, ne_eq, Bool.not_eq_true', decide_eq_false_iff_not,
    UInt32.le_def, Nat.le_eq, Bool.not_eq_eq_eq_not, Bool.not_true, bne_eq_false_iff_eq,
    BitVec.le_def]
  have h1 : (UInt32.toBitVec 65).toNat = 65 := rfl
  have h2 : (UInt32.toBitVec 90).toNat = 90 := rfl
  have h3 : (UInt32.toBitVec 97).toNat = 97 := rfl
  have h4 : (UInt32.toBitVec 122).toNat = 122 := rfl
  have h5 : (UInt32.toBitVec 48).toNat = 48 := rfl
  have h6 : (UInt32.toBitVec 57).toNat = 57 := rfl
  rw [h1, h2, h3, h4, h5, h6]
  have h7 : c.val.toBitVec.toNat = c.val.toNat := rfl
  rw [h7]
  tauto

theorem IsValidOptName_iff (name : Str) :
    IsValidOptName name = true ↔ ∀ c ∈ name, AllowedNameChar c := by
  unfold IsValidOptName
  rw [List.all_eq_true]
  exact forall₂_congr (fun c _ => iswalnum_or_hyphen_iff c)

theorem OptionBase_new_error_iff (nmes : List Str) (arg : OptionArg) (desc : Str) :
    (∃ e, OptionBase.new nmes arg desc = .error e) ↔
      (nmes = [] ∨ ∃ n ∈ nmes, ∃ c ∈ n, ¬ AllowedNameChar c) := by
  unfold OptionBase.new
  cases nmes with
  | nil => simp
  | cons a as =>
    simp only [List.length_cons, beq_iff_eq, Nat.add_one_ne_zero, ↓reduceIte, reduceCtorEq,
      false_or]
    cases hf : List.find? (fun it => !IsValidOptName it) (a :: as) with
    | none =>
      simp only [reduceCtorEq, exists_false, false_iff, not_exists, not_and, not_not]
      intro n hn
      have hvalid := List.find?_eq_none.mp hf n hn
      simp only [Bool.not_eq_true', Bool.not_eq_false] at hvalid
      exact (IsValidOptName_iff n).mp hvalid
    | some it =>
      simp only [Except.error.injEq, exists_eq', true_iff]
      have hmem := List.mem_of_find?_eq_some hf
      have hbad := List.find?_some hf
      simp only [Bool.not_eq_true'] at hbad
      refine ⟨it, hmem, ?_⟩
      by_contra hall
      push_neg at hall
      have hvalid := (IsValidOptName_iff it).mpr hall
      simp [hbad] at hvalid

theorem OptionBase_new_error_kind (nmes : List Str) (arg : OptionArg) (desc : Str) (e : Error)
    (h : OptionBase.new nmes arg desc = .error e) : e.isInvalidArgument = true := by
  unfold OptionBase.new at h
  split at h
  · cases h; rfl
  · split at h
    · cases h; rfl
    · cases h

theorem OptionBase_new_ok (nmes : List Str) (arg : OptionArg) (desc : Str) (b : OptionBase)
    (h : OptionBase.new nmes arg desc = .ok b) :
    b = { names := nmes, description := desc, arg := arg, is_set := false } := by
  unfold OptionBase.new at h
  split at h
  · cases h
  · split at h
    · cases h
    · cases h; rfl

/-- C4. Constructing an option fails with an invalid-argument error exactly
when the list of names is empty or some name has a character outside
`[A-Za-z0-9-]`; in every other case the construction succeeds and the
descriptor stores the names as given, in order. -/
theorem construct_validates_names {T : Type} (init : T) (nmes : List Str) (arg : OptionArg)
    (desc : Str) :
    ((∃ e, TypedOption.new init nmes arg desc = .error e ∧ e.isInvalidArgument = true) ↔
        (nmes = [] ∨ ∃ n ∈ nmes, ∃ c ∈ n, ¬ AllowedNameChar c)) ∧
    ((nmes = [] ∨ ∃ n ∈ nmes, ∃ c ∈ n, ¬ AllowedNameChar c) ∨
        ∃ o, TypedOption.new init nmes arg desc = .ok o ∧ o.names = nmes ∧ o.arg = arg ∧
          o.is_set = false ∧ o.value = init) := by
  have hiff := OptionBase_new_error_iff nmes arg desc
  unfold TypedOption.new
  cases hb : OptionBase.new nmes arg desc with
  | error e =>
    have hbad := hiff.mp ⟨e, hb⟩
    exact ⟨⟨fun _ => hbad, fun _ => ⟨e, rfl, OptionBase_new_error_kind nmes arg desc e hb⟩⟩,
      Or.inl hbad⟩
  | ok b =>
    have hgood : ¬ (nmes = [] ∨ ∃ n ∈ nmes, ∃ c ∈ n, ¬ AllowedNameChar c) := by
      intro hbad
      obtain ⟨e, he⟩ := hiff.mpr hbad
      rw [hb] at he
      cases he
    have hb2 := OptionBase_new_ok nmes arg desc b hb
    subst hb2
    refine ⟨⟨?_, fun h => absurd h hgood⟩, Or.inr ⟨_, rfl, rfl, rfl, rfl, rfl⟩⟩
    rintro ⟨e, he, -⟩
    cases he

/-- The test `TEST(Option, NoNames)`: no name at all is refused. -/
theorem test_Option_NoNames :
    TypedOption.new (0 : Int) [] OptionArg.NONE "invalid option with no name".toList =
      .error .noNames := by
  rfl

/-- The test `TEST(Option, InvalidName)`: the second name is refused. -/
theorem test_Option_InvalidName :
    TypedOption.new (0 : Int) ["valid".toList, "[(*)]invalid".toList] OptionArg.NONE
        "invalid option with no name".toList =
      .error (.invalidName "[(*)]invalid".toList) := by
  rfl

/-- The concrete descriptors used below are what the constructor builds. -/
theorem intOption_constructed :
    TypedOption.new (0 : Int) ["x".toList] OptionArg.REQ "desc".toList =
      .ok (intOption "x".toList OptionArg.REQ) := by
  rfl

/-! ## Lookup -/

theorem findByName_some (name : Str) (l : List Registered) (k p : Nat) (ob : Registered)
    (h : findByName name l k = some (p, ob)) :
    k ≤ p ∧ l[p - k]? = some ob ∧ name ∈ ob.opt.names := by
  induction l generalizing k with
  | nil => simp [findByName] at h
  | cons a as ih =>
    unfold findByName at h
    split at h
    · rename_i hany
      cases h
      refine ⟨le_refl _, by simp, ?_⟩
      simpa using hany
    · obtain ⟨h1, h2, h3⟩ := ih (k + 1) h
      refine ⟨by omega, ?_, h3⟩
      have hp : p - k = (p - (k + 1)) + 1 := by omega
      rw [hp]
      simpa using h2

theorem findByName_set (name : Str) (l : List Registered) (k p : Nat) (ob ob' : Registered)
    (h : findByName name l k = some (p, ob)) (hn : ob'.opt.names = ob.opt.names) :
    findByName name (l.set (p - k) ob') k = some (p, ob') := by
  induction l generalizing k with
  | nil => simp [findByName] at h
  | cons a as ih =>
    unfold findByName at h
    split at h
    · rename_i hany
      cases h
      simp [findByName, hn, hany]
    · rename_i hany
      have hk := (findByName_some name as (k + 1) p ob h).1
      have hp : p - k = (p - (k + 1)) + 1 := by omega
      rw [hp, List.set_cons_succ]
      unfold findByName
      rw [if_neg hany]
      exact ih (k + 1) h

theorem GetOptionByName_ok (options : List Registered) (name : Str) (p : Nat) (ob : Registered)
    (h : GetOptionByName options name = .ok (p, ob)) :
    options[p]? = some ob ∧ name ∈ ob.opt.names := by
  unfold GetOptionByName at h
  split at h
  · rename_i found hf
    cases h
    have hs := findByName_some name options 0 p ob hf
    simpa using hs.2
  · cases h

theorem GetOptionByName_set (options : List Registered) (name : Str) (p : Nat)
    (ob ob' : Registered) (h : GetOptionByName options name = .ok (p, ob))
    (hn : ob'.opt.names = ob.opt.names) :
    GetOptionByName (options.set p ob') name = .ok (p, ob') := by
  unfold GetOptionByName at h
  split at h
  · rename_i found hf
    cases h
    have hs := findByName_set name options 0 p ob ob' hf hn
    simp only [Nat.sub_zero] at hs
    simp [GetOptionByName, hs]
  · cases h

theorem findByName_none (name : Str) (l : List Registered) (k : Nat)
    (h : ∀ ob ∈ l, name ∉ ob.opt.names) : findByName name l k = none := by
  induction l generalizing k with
  | nil => rfl
  | cons a as ih =>
    unfold findByName
    have ha : ¬ (a.opt.names.any (fun n => n == name) = true) := by
      simpa using h a (List.mem_cons_self _ _)
    rw [if_neg ha]
    exact ih (k + 1) (fun ob hob => h ob (List.mem_cons_of_mem _ hob))

theorem GetOptionByName_error (options : List Registered) (name : Str)
    (h : ∀ ob ∈ options, name ∉ ob.opt.names) :
    GetOptionByName options name = .error (.nonExistent name) := by
  simp [GetOptionByName, findByName_none name options 0 h]


/-! ## Stream extraction of an `int` -/

theorem isspace_of_isDigit (c : Char) (h : c.isDigit = true) : isspace c = false := by
  unfold Char.isDigit at h
  simp only [Bool.and_eq_true, decide_eq_true_eq, UInt32.le_def, BitVec.le_def] at h
  have h1 : (UInt32.toBitVec 48).toNat = 48 := rfl
  have h7 : c.val.toBitVec.toNat = c.val.toNat := rfl
  rw [h1, h7] at h
  have hne : ∀ d : Char, d.val.toNat < 48 → c ≠ d := by
    intro d hd hcd
    subst hcd
    omega
  simp [isspace, hne ' ' (by decide), hne '\t' (by decide), hne '\n' (by decide),
    hne '\x0b' (by decide), hne '\x0c' (by decide), hne '\r' (by decide)]

theorem takeWhile_of_all {α : Type} (p : α → Bool) (l : List α) (h : l.all p = true) :
    l.takeWhile p = l := by
  induction l with
  | nil => rfl
  | cons a as ih =>
    simp only [List.all_cons, Bool.and_eq_true] at h
    simp [List.takeWhile, h.1, ih h.2]

theorem readSign_unsigned (c : Char) (t : Str) (hm : c ≠ '-') (hp : c ≠ '+') :
    readSign (c :: t) = (false, c :: t) := by
  unfold readSign
  split
  · rename_i h; simp at h; exact absurd h.1 hm
  · rename_i h; simp at h; exact absurd h.1 hp
  · rfl

theorem literalDigits_unsigned (c : Char) (t : Str) (hm : c ≠ '-') (hp : c ≠ '+') :
    literalDigits (c :: t) = c :: t := by
  unfold literalDigits
  split
  · rename_i h; simp at h; exact absurd h.1 hm
  · rename_i h; simp at h; exact absurd h.1 hp
  · rfl

theorem literalValue_unsigned (c : Char) (t : Str) (hm : c ≠ '-') (hp : c ≠ '+') :
    literalValue (c :: t) = (digitsValue (c :: t) : Int) := by
  unfold literalValue
  split
  · rename_i h; simp at h; exact absurd h.1 hm
  · rename_i h; simp at h; exact absurd h.1 hp
  · rfl

/-- On a decimal literal the extraction reads the whole text: it yields the
integer the literal denotes when that fits an `int`, and fails otherwise. -/
theorem extractInt_literal (s : Str) (h : IsDecimalLiteral s = true) :
    extractInt s =
      if INT_MIN ≤ literalValue s ∧ literalValue s ≤ INT_MAX then some (literalValue s)
      else none := by
  unfold IsDecimalLiteral at h
  simp only [Bool.and_eq_true, Bool.not_eq_true', List.isEmpty_eq_false] at h
  obtain ⟨hne, hall⟩ := h
  cases s with
  | nil => simp [literalDigits] at hne
  | cons c t =>
    by_cases hm : c = '-'
    · subst hm
      have hne2 : t ≠ [] := by simpa [literalDigits] using hne
      have hall2 : t.all Char.isDigit = true := by simpa [literalDigits] using hall
      have ht : t.takeWhile Char.isDigit = t := takeWhile_of_all _ _ hall2
      simp [extractInt, readSign, literalValue, List.dropWhile, isspace, ht, hne2]
    · by_cases hp : c = '+'
      · subst hp
        have hne2 : t ≠ [] := by simpa [literalDigits] using hne
        have hall2 : t.all Char.isDigit = true := by simpa [literalDigits] using hall
        have ht : t.takeWhile Char.isDigit = t := takeWhile_of_all _ _ hall2
        simp [extractInt, readSign, literalValue, List.dropWhile, isspace, ht, hne2]
      · rw [literalDigits_unsigned c t hm hp] at hall
        have ht : (c :: t).takeWhile Char.isDigit = c :: t := takeWhile_of_all _ _ hall
        have hcd : c.isDigit = true := by
          simp only [List.all_cons, Bool.and_eq_true] at hall
          exact hall.1
        have hsp := isspace_of_isDigit c hcd
        rw [literalValue_unsigned c t hm hp]
        unfold extractInt
        simp only [List.dropWhile, hsp, readSign_unsigned c t hm hp, ht]
        simp

/-! ## `ParseValue` -/

/-- The call stores the value, sets `is_set` and writes the bound variable when
the extraction succeeds and the validator, if there is one, accepts. -/
theorem ParseValue_accept {T : Type} (extract : Str → Option T)
    (o : TypedOption T) (mem : Memory) (strVal : Str) (v : T) (hx : extract strVal = some v)
    (hc : ∀ f, o.check = some f → f v = true) :
    o.ParseValue extract mem strVal =
      (({ o with value := v, is_set := true }, mem.store o.var_ptr ⟨T, v⟩), none) := by
  unfold TypedOption.ParseValue
  rw [hx]
  cases hch : o.check with
  | none => simp
  | some f => simp [hc f hch]

/-- The descriptor `ob` and the memory once the value `v` has been parsed into
it. -/
theorem virtual_ParseValue_accept (ob : Registered) (mem : Memory) (strVal : Str) (v : ob.T)
    (hx : ob.extract strVal = some v) (hc : ∀ f, ob.opt.check = some f → f v = true) :
    ob.ParseValue mem strVal =
      (({ ob with opt := { ob.opt with value := v, is_set := true } },
        mem.store ob.opt.var_ptr ⟨ob.T, v⟩), none) := by
  unfold Registered.ParseValue
  rw [ParseValue_accept ob.extract ob.opt mem strVal v hx hc]

/-- The call throws, and leaves the descriptor and the memory as they were,
when the extraction fails. -/
theorem virtual_ParseValue_fail (ob : Registered) (mem : Memory) (strVal : Str)
    (hx : ob.extract strVal = none) :
    ob.ParseValue mem strVal =
      ((ob, mem), some (.parseFailed ob.opt.GetLongestName strVal)) := by
  unfold Registered.ParseValue TypedOption.ParseValue
  rw [hx]

/-! ## One iteration of the scan, by the shape of the token -/

theorem parseStep_ignored (options : List Registered) (mem : Memory) (key : Str) (nextArg : Option Str)
    (h : key.length = 1 ∨ key.head? ≠ some '-') :
    parseStep options mem key nextArg = .next options mem := by
  unfold parseStep
  rcases h with h | h
  · simp [h]
  · cases key with
    | nil => simp
    | cons a as =>
      have ha : a ≠ '-' := by simpa using h
      simp [ha]

theorem parseStep_terminator (options : List Registered) (mem : Memory) (nextArg : Option Str) :
    parseStep options mem ['-', '-'] nextArg = .stop options mem := by
  simp [parseStep]

theorem parseStep_short_single (options : List Registered) (mem : Memory) (c : Char) (nextArg : Option Str)
    (hc : c ≠ '-') :
    parseStep options mem ['-', c] nextArg =
      match GetOptionByName options [c] with
      | .error e => .thrown e options mem
      | .ok (p, opt) =>
        match nextArg with
        | none => .nullArg options mem
        | some val =>
          match callParseValue options mem p opt val with
          | ((options, mem), some e) => .thrown e options mem
          | ((options, mem), none) => .skip options mem := by
  simp [parseStep, hc]

theorem parseStep_short_multi (options : List Registered) (mem : Memory) (c d : Char) (more : Str)
    (nextArg : Option Str) (hc : c ≠ '-') :
    parseStep options mem ('-' :: c :: d :: more) nextArg =
      match GetOptionByName options [c] with
      | .error e => .thrown e options mem
      | .ok (p, opt) =>
        if opt.opt.arg == OptionArg.REQ then
          match callParseValue options mem p opt (d :: more) with
          | ((options, mem), some e) => .thrown e options mem
          | ((options, mem), none) => .next options mem
        else
          match clusterLoop options mem (c :: d :: more) with
          | ((options, mem), some e) => .thrown e options mem
          | ((options, mem), none) => .next options mem := by
  simp [parseStep, hc]

theorem parseStep_long_plain (options : List Registered) (mem : Memory) (name : Str) (nextArg : Option Str)
    (hne : name ≠ []) (heq : '=' ∉ name) :
    parseStep options mem ('-' :: '-' :: name) nextArg =
      match GetOptionByName options name with
      | .error e => .thrown e options mem
      | .ok (p, opt) =>
        if opt.opt.arg != OptionArg.NONE then
          match nextArg with
          | none => .nullArg options mem
          | some val =>
            match callParseValue options mem p opt val with
            | ((options, mem), some e) => .thrown e options mem
            | ((options, mem), none) =>
              match lookupParseValue options mem name val with
              | ((options, mem), some e) => .thrown e options mem
              | ((options, mem), none) => .skip options mem
        else
          match callParseValue options mem p opt [] with
          | ((options, mem), some e) => .thrown e options mem
          | ((options, mem), none) =>
            match lookupParseValue options mem name [] with
            | ((options, mem), some e) => .thrown e options mem
            | ((options, mem), none) => .next options mem := by
  cases name with
  | nil => exact absurd rfl hne
  | cons a as =>
    have h1 : ¬ ('=' = a ∨ '=' ∈ as) := by
      simpa using heq
    have h2 : ¬ (¬ '=' = a → '=' ∈ as) := by
      intro h; exact h1 (by tauto)
    simp only [parseStep, List.length_cons, List.headD_cons, List.getD_cons_succ,
      List.getD_cons_zero, List.drop_succ_cons, List.drop_zero, List.contains, List.elem_eq_mem,
      List.mem_cons, decide_eq_true_eq, h1, h2, ↓reduceIte]
    simp

theorem parseStep_long_equals (options : List Registered) (mem : Memory) (name : Str) (nextArg : Option Str)
    (heq : '=' ∈ name) :
    parseStep options mem ('-' :: '-' :: name) nextArg =
      match lookupParseValue options mem (name.take 1) (name.drop 1) with
      | ((options, mem), some e) => .thrown e options mem
      | ((options, mem), none) => .next options mem := by
  cases name with
  | nil => simp at heq
  | cons a as =>
    have h1 : ('=' = a ∨ '=' ∈ as) := by
      simpa using heq
    have h2 : (¬ '=' = a → '=' ∈ as) := by
      tauto
    simp [parseStep, h1, h2]


theorem virtual_ParseValue_withValue (ob : Registered) (mem : Memory) (strVal : Str)
    (v : ob.T) (hx : ob.extract strVal = some v)
    (hc : ∀ f, ob.opt.check = some f → f v = true) :
    ob.ParseValue mem strVal = ((ob.withValue v, ob.writeThrough mem v), none) :=
  virtual_ParseValue_accept ob mem strVal v hx hc

theorem withValue_idem (ob : Registered) (v : ob.T) :
    (ob.withValue v).withValue v = ob.withValue v := rfl

/-- Writing a variable twice with the same content is writing it once. -/
theorem Memory_write_idem (mem : Memory) (ptr : Nat) (c : Cell) :
    (mem.write ptr c).write ptr c = mem.write ptr c := by
  funext a
  simp only [Memory.write]
  split <;> rfl

theorem Memory_store_idem (mem : Memory) (var_ptr : Option Nat) (c : Cell) :
    (mem.store var_ptr c).store var_ptr c = mem.store var_ptr c := by
  cases var_ptr with
  | none => rfl
  | some ptr => exact Memory_write_idem mem ptr c

theorem writeThrough_idem (ob : Registered) (mem : Memory) (v : ob.T) :
    (ob.withValue v).writeThrough (ob.writeThrough mem v) v = ob.writeThrough mem v :=
  Memory_store_idem mem ob.opt.var_ptr ⟨ob.T, v⟩

/-- The loop of `Parse` at a token, by what the iteration does. -/
theorem parseLoop_cons (options : List Registered) (mem : Memory) (key : Str) (rest : List Str) :
    parseLoop options mem (key :: rest) =
      match parseStep options mem key rest.head? with
      | .next options mem => parseLoop options mem rest
      | .skip options mem => parseLoop options mem rest.tail
      | .stop options mem => ⟨.returned, options, mem⟩
      | .thrown e options mem => ⟨.thrown e, options, mem⟩
      | .nullArg options mem => ⟨.nullArg, options, mem⟩ := by
  cases rest with
  | nil =>
    simp only [parseLoop, List.head?_nil, List.tail_nil]
  | cons v rest =>
    simp only [parseLoop, List.head?_cons, List.tail_cons]

/-! ## Whole-parse behaviour, token shape by token shape -/

/-- C1, as amended. Short form with a separate value: when the one-character
alias `c` (a short option, so not `-`) resolves to a REQUIRED integer option
that has no validator or whose validator accepts `n`, and `s` is a decimal
literal denoting the in-range integer `n`, `Parse` on `[prog, "-c", s]` returns
normally and leaves that option with `Value() == n` and `is_set == true`, the
other descriptors untouched; the variable the option is bound to, if any, then
holds `n`, and no other variable of the caller is written. -/
theorem parse_short_separate_value (options : List Registered) (mem : Memory) (c : Char) (p : Nat)
    (d : TypedOption Int) (prog s : Str) (hc : c ≠ '-')
    (hlook : GetOptionByName options [c] = .ok (p, Registered.ofInt d))
    (_hreq : d.arg = OptionArg.REQ) (hlit : IsDecimalLiteral s = true)
    (hrange : INT_MIN ≤ literalValue s ∧ literalValue s ≤ INT_MAX)
    (hcheck : ∀ f, d.check = some f → f (literalValue s) = true) :
    Parse options mem [prog, ['-', c], s] =
      ⟨.returned, options.set p (Registered.ofInt
        { d with value := literalValue s, is_set := true }),
        mem.store d.var_ptr ⟨Int, literalValue s⟩⟩ := by
  have hx : (Registered.ofInt d).extract s = some (literalValue s) := by
    show extractInt s = _
    rw [extractInt_literal s hlit, if_pos hrange]
  have hpv := virtual_ParseValue_accept (Registered.ofInt d) mem s (literalValue s) hx hcheck
  simp only [Parse, List.drop_succ_cons, List.drop_zero, parseLoop,
    parseStep_short_single options mem c (some s) hc, hlook, callParseValue, hpv]
  rfl

/-- The test `TEST(Parse, ShortName)`: `-x 10` gives `Value() == 10`. -/
theorem parse_short_separate_value_witness :
    Parse [Registered.ofInt (intOption "x".toList OptionArg.REQ)] noVariables
        ["program.exe".toList, "-x".toList, "10".toList] =
      ⟨.returned, [Registered.ofInt
        { intOption "x".toList OptionArg.REQ with value := 10, is_set := true }],
        noVariables⟩ :=
  parse_short_separate_value [Registered.ofInt (intOption "x".toList OptionArg.REQ)]
    noVariables 'x' 0
    (intOption "x".toList OptionArg.REQ) "program.exe".toList "10".toList (by decide) rfl rfl
    (by decide) (by decide) (by intro f hf; cases hf)

/-- C1 as stated fails: `x` resolves to a REQUIRED integer option and `"10"` is
a decimal literal denoting the in-range integer 10, yet `Parse` on
`["program.exe", "-x", "10"]` throws, and leaves the option unset, because the
option carries a validator that rejects 10. -/
theorem parse_short_validator_rejects :
    GetOptionByName [Registered.ofInt ((intOption "x".toList OptionArg.REQ).Check belowFive)]
        "x".toList =
      .ok (0, Registered.ofInt ((intOption "x".toList OptionArg.REQ).Check belowFive)) ∧
    ((intOption "x".toList OptionArg.REQ).Check belowFive).arg = OptionArg.REQ ∧
    IsDecimalLiteral "10".toList = true ∧ literalValue "10".toList = 10 ∧
    INT_MIN ≤ (10 : Int) ∧ (10 : Int) ≤ INT_MAX ∧
    (Parse [Registered.ofInt ((intOption "x".toList OptionArg.REQ).Check belowFive)]
        noVariables ["program.exe".toList, "-x".toList, "10".toList]).exit =
      .thrown (.checkFailed "x".toList "10".toList) ∧
    (Parse [Registered.ofInt ((intOption "x".toList OptionArg.REQ).Check belowFive)]
        noVariables ["program.exe".toList, "-x".toList, "10".toList]).options.map
        (fun ob => ob.opt.is_set) = [false] := by
  refine ⟨rfl, rfl, by decide, by decide, by decide, by decide, by decide, by decide⟩

/-- Parsing the same text into the same descriptor a second time changes
nothing more. -/
theorem lookupParseValue_again (options : List Registered) (mem : Memory) (name strVal : Str) (p : Nat)
    (ob : Registered) (v : ob.T) (hlook : GetOptionByName options name = .ok (p, ob))
    (hx : ob.extract strVal = some v) (hc : ∀ f, ob.opt.check = some f → f v = true) :
    lookupParseValue (options.set p (ob.withValue v)) (ob.writeThrough mem v) name strVal =
      ((options.set p (ob.withValue v), ob.writeThrough mem v), none) := by
  unfold lookupParseValue
  rw [GetOptionByName_set options name p ob (ob.withValue v) hlook rfl]
  have h2 := virtual_ParseValue_withValue (ob.withValue v) (ob.writeThrough mem v) strVal v
    hx hc
  simp only [callParseValue, h2, withValue_idem, List.set_set]
  rw [show (ob.withValue v).writeThrough (ob.writeThrough mem v) v = ob.writeThrough mem v
    from writeThrough_idem ob mem v]

theorem parseStep_long_separate (options : List Registered) (mem : Memory) (name : Str) (p : Nat)
    (ob : Registered) (v : ob.T) (s : Str) (hne : name ≠ []) (heq : '=' ∉ name)
    (hlook : GetOptionByName options name = .ok (p, ob)) (hreq : ob.opt.arg = OptionArg.REQ)
    (hx : ob.extract s = some v) (hc : ∀ f, ob.opt.check = some f → f v = true) :
    parseStep options mem ('-' :: '-' :: name) (some s) =
      .skip (options.set p (ob.withValue v)) (ob.writeThrough mem v) := by
  rw [parseStep_long_plain options mem name (some s) hne heq]
  simp only [hlook, hreq]
  simp only [callParseValue, virtual_ParseValue_withValue ob mem s v hx hc,
    lookupParseValue_again options mem name s p ob v hlook hx hc]
  rfl

/-- C2. Long form with a separate value: when the alias `name` (non-empty, as
`--` alone is the terminator, and without `=`) resolves to a REQUIRED option,
and the text `s` converts to `v` of the option's type and passes its validator,
`Parse` on `[prog, "--name", s]` returns normally and leaves that option with
`Value() == v` and `is_set == true`; the token `s` is consumed as the value:
with further tokens behind it the scan goes on at the token after `s`. The
variable the option is bound to, if any, then holds `v`. -/
theorem parse_long_separate_value (options : List Registered) (mem : Memory) (name : Str) (p : Nat)
    (ob : Registered) (v : ob.T) (prog s : Str) (hne : name ≠ []) (heq : '=' ∉ name)
    (hlook : GetOptionByName options name = .ok (p, ob)) (hreq : ob.opt.arg = OptionArg.REQ)
    (hx : ob.extract s = some v) (hc : ∀ f, ob.opt.check = some f → f v = true) :
    Parse options mem [prog, '-' :: '-' :: name, s] =
        ⟨.returned, options.set p (ob.withValue v), ob.writeThrough mem v⟩ ∧
      (ob.withValue v).opt.Value = v ∧ (ob.withValue v).opt.is_set = true ∧
      ∀ rest : List Str,
        Parse options mem (prog :: ('-' :: '-' :: name) :: s :: rest) =
          parseLoop (options.set p (ob.withValue v)) (ob.writeThrough mem v) rest := by
  have hstep := parseStep_long_separate options mem name p ob v s hne heq hlook hreq hx hc
  refine ⟨?_, rfl, rfl, ?_⟩
  · simp only [Parse, List.drop_succ_cons, List.drop_zero, parseLoop, hstep]
  · intro rest
    simp only [Parse, List.drop_succ_cons, List.drop_zero, parseLoop, hstep]

/-- The long form on an integer option: `--x 10` gives `Value() == 10`. -/
theorem parse_long_separate_value_witness :
    Parse [Registered.ofInt (intOption "x".toList OptionArg.REQ)] noVariables
        ["program.exe".toList, "--x".toList, "10".toList] =
      ⟨.returned, [Registered.ofInt
        { intOption "x".toList OptionArg.REQ with value := 10, is_set := true }],
        noVariables⟩ :=
  (parse_long_separate_value [Registered.ofInt (intOption "x".toList OptionArg.REQ)]
    noVariables "x".toList 0 (Registered.ofInt (intOption "x".toList OptionArg.REQ)) (10 : Int)
    "program.exe".toList "10".toList (by decide) (by decide) rfl rfl rfl
    (by intro f hf; cases hf)).1

/-- C3. The inline form does not do what the claim says. On
`["program.exe", "--x=10"]`, with `x` a REQUIRED integer option, `Parse` hands
the option the text `=10` and throws, leaving the option unset. On
`["program.exe", "--xy=10"]` it looks up `x`, not `xy`, and hands it `y=10`:
the token is cut after its first character, not at the `=`. -/
theorem parse_long_inline_value_misparsed :
    Parse [Registered.ofInt (intOption "x".toList OptionArg.REQ)] noVariables
        ["program.exe".toList, "--x=10".toList] =
      ⟨.thrown (.parseFailed "x".toList "=10".toList),
        [Registered.ofInt (intOption "x".toList OptionArg.REQ)], noVariables⟩ ∧
    Parse [Registered.ofInt (intOption "xy".toList OptionArg.REQ),
          Registered.ofString (stringOption "x".toList OptionArg.REQ)] noVariables
        ["program.exe".toList, "--xy=10".toList] =
      ⟨.returned, [Registered.ofInt (intOption "xy".toList OptionArg.REQ),
        Registered.ofString
          { stringOption "x".toList OptionArg.REQ with
            value := "y=10".toList, is_set := true }], noVariables⟩ :=
  ⟨rfl, rfl⟩


/-! ## The terminator and the shapes of a token -/

/-- The five shapes of a token, as `Parse` tells them apart. -/
theorem token_shapes (key : Str) :
    (key.length = 1 ∨ key.head? ≠ some '-') ∨ key = ['-', '-'] ∨
      (∃ name, name ≠ [] ∧ key = '-' :: '-' :: name) ∨
      (∃ c, c ≠ '-' ∧ key = ['-', c]) ∨
      (∃ c d more, c ≠ '-' ∧ key = '-' :: c :: d :: more) := by
  match key with
  | [] => left; right; simp
  | [_] => left; left; rfl
  | a :: b :: rest =>
    by_cases ha : a = '-'
    · subst ha
      by_cases hb : b = '-'
      · subst hb
        cases rest with
        | nil => right; left; rfl
        | cons r rs => right; right; left; exact ⟨r :: rs, by simp, rfl⟩
      · cases rest with
        | nil => right; right; right; left; exact ⟨b, hb, rfl⟩
        | cons r rs => right; right; right; right; exact ⟨b, r, rs, hb, rfl⟩
    · left; right; simpa using ha

/-- An iteration that does not run off the end of `argv` does not depend on
whether a further token follows, and then it does not consume one. -/
theorem parseStep_none (options : List Registered) (mem : Memory) (key v : Str) :
    parseStep options mem key none = .nullArg options mem ∨
      (parseStep options mem key (some v) = parseStep options mem key none ∧
        ∀ o m, parseStep options mem key none ≠ .skip o m) := by
  rcases token_shapes key with h | h | ⟨name, hne, h⟩ | ⟨c, hc, h⟩ | ⟨c, d, more, hc, h⟩
  · right
    simp [parseStep_ignored options mem key _ h]
  · subst h
    right
    simp [parseStep_terminator]
  · subst h
    by_cases heq : '=' ∈ name
    · right
      simp only [parseStep_long_equals options mem name _ heq, true_and]
      intro o m
      split <;> simp
    · simp only [parseStep_long_plain options mem name _ hne heq]
      cases hg : GetOptionByName options name with
      | error e => right; simp
      | ok found =>
        obtain ⟨p, opt⟩ := found
        by_cases harg : opt.opt.arg = OptionArg.NONE
        · right
          simp only [harg, bne_self_eq_false, Bool.false_eq_true, ↓reduceIte, true_and]
          intro o m
          split
          · simp
          · split <;> simp
        · left
          simp [harg]
  · subst h
    simp only [parseStep_short_single options mem c _ hc]
    cases hg : GetOptionByName options [c] with
    | error e => right; simp
    | ok found =>
      obtain ⟨p, opt⟩ := found
      left
      rfl
  · subst h
    right
    simp only [parseStep_short_multi options mem c d more _ hc, true_and]
    intro o m
    split
    · simp
    · split
      · split <;> simp
      · split <;> simp

/-- The scan stops at the token `--`, whatever follows it. -/
theorem parseLoop_terminator (options : List Registered) (mem : Memory) (post : List Str) :
    parseLoop options mem (['-', '-'] :: post) = ⟨.returned, options, mem⟩ := by
  rw [parseLoop_cons, parseStep_terminator]

/-- Cutting the token list just before a `--` does not change the outcome,
unless the cut list ends in an option still waiting for its value. -/
theorem parseLoop_stops_at_terminator :
    ∀ (pre : List Str) (options : List Registered) (mem : Memory) (post : List Str),
      (parseLoop options mem pre).exit ≠ .nullArg →
      parseLoop options mem (pre ++ ['-', '-'] :: post) = parseLoop options mem pre
  | [], options, mem, post, _ => by
    rw [List.nil_append, parseLoop_terminator]
    rfl
  | [key], options, mem, post, h => by
    have hstep := parseStep_none options mem key ['-', '-']
    rw [parseLoop_cons options mem key []] at h ⊢
    rw [List.singleton_append, parseLoop_cons options mem key (['-', '-'] :: post)]
    simp only [List.head?_cons, List.head?_nil, List.tail_cons, List.tail_nil] at h ⊢
    rcases hstep with ho | ⟨hsame, hskip⟩
    · rw [ho] at h
      exact absurd rfl h
    · rw [hsame]
      cases hs : parseStep options mem key none with
      | next o m =>
        show parseLoop o m (['-', '-'] :: post) = parseLoop o m []
        rw [parseLoop_terminator]
        rfl
      | skip o m => exact absurd hs (hskip o m)
      | stop o m => rfl
      | thrown e o m => rfl
      | nullArg o m => rfl
  | key :: v :: rest, options, mem, post, h => by
    rw [parseLoop_cons options mem key (v :: rest)] at h ⊢
    rw [List.cons_append, List.cons_append,
      parseLoop_cons options mem key (v :: (rest ++ ['-', '-'] :: post))]
    simp only [List.head?_cons, List.tail_cons] at h ⊢
    cases hs : parseStep options mem key (some v) with
    | next o m =>
      rw [hs] at h
      exact parseLoop_stops_at_terminator (v :: rest) o m post h
    | skip o m =>
      rw [hs] at h
      exact parseLoop_stops_at_terminator rest o m post h
    | stop o m => rfl
    | thrown e o m => rfl
    | nullArg o m => rfl

/-- C5, as amended. Terminator: when the scan of the tokens before a `--` does
not end by reading past the end of `argv` for a value (so the `--` is not
taken as the value of the option token right before it), `Parse` stops at the
`--`: the outcome, exit and final state of every descriptor and of every
variable of the caller, is that of `Parse` on the list cut just before the
`--`, whatever follows it. -/
theorem parse_stops_at_terminator (options : List Registered) (mem : Memory) (prog : Str)
    (pre post : List Str) (h : (Parse options mem (prog :: pre)).exit ≠ .nullArg) :
    Parse options mem (prog :: (pre ++ ['-', '-'] :: post)) =
      Parse options mem (prog :: pre) := by
  simp only [Parse, List.drop_succ_cons, List.drop_zero] at h ⊢
  exact parseLoop_stops_at_terminator pre options mem post h


/-- The amended C5 at `-x 10 -- -x 20`: the second `-x` is never read. -/
theorem parse_stops_at_terminator_witness :
    Parse [Registered.ofInt (intOption "x".toList OptionArg.REQ)] noVariables
        ["prog".toList, "-x".toList, "10".toList, "--".toList, "-x".toList, "20".toList] =
      Parse [Registered.ofInt (intOption "x".toList OptionArg.REQ)] noVariables
        ["prog".toList, "-x".toList, "10".toList] :=
  parse_stops_at_terminator [Registered.ofInt (intOption "x".toList OptionArg.REQ)]
    noVariables "prog".toList ["-x".toList, "10".toList] ["-x".toList, "20".toList] (by decide)

/-- C5 as stated fails: on `["prog", "-x", "--", "-y", "v"]` the `--` is taken
as the value of `x`, the scan goes on, and the token `v` behind the `--` is
parsed into `y`; on the list cut before the `--`, `["prog", "-x"]`, `Parse`
reads past the end of `argv` and sets nothing. -/
theorem parse_terminator_taken_as_value :
    Parse [Registered.ofString (stringOption "x".toList OptionArg.REQ),
          Registered.ofString (stringOption "y".toList OptionArg.REQ)] noVariables
        ["prog".toList, "-x".toList, "--".toList, "-y".toList, "v".toList] =
      ⟨.returned,
        [Registered.ofString
          { stringOption "x".toList OptionArg.REQ with value := "--".toList, is_set := true },
         Registered.ofString
          { stringOption "y".toList OptionArg.REQ with value := "v".toList, is_set := true }],
        noVariables⟩ ∧
    Parse [Registered.ofString (stringOption "x".toList OptionArg.REQ),
          Registered.ofString (stringOption "y".toList OptionArg.REQ)] noVariables
        ["prog".toList, "-x".toList] =
      ⟨.nullArg,
        [Registered.ofString (stringOption "x".toList OptionArg.REQ),
         Registered.ofString (stringOption "y".toList OptionArg.REQ)], noVariables⟩ :=
  ⟨rfl, rfl⟩

/-- C6. Clustered flags do not get set. On `["prog", "-abc"]`, with `a`, `b`
and `c` three options of arity NONE, `Parse` hands `a` the empty text, whose
extraction fails, and throws: no option is set. This is so for `Option<int>`
and for `Option<std::string>` descriptors alike. -/
theorem parse_clustered_flags_throw :
    Parse [Registered.ofInt (intOption "a".toList OptionArg.NONE),
          Registered.ofInt (intOption "b".toList OptionArg.NONE),
          Registered.ofInt (intOption "c".toList OptionArg.NONE)] noVariables
        ["prog".toList, "-abc".toList] =
      ⟨.thrown (.parseFailed "a".toList []),
        [Registered.ofInt (intOption "a".toList OptionArg.NONE),
         Registered.ofInt (intOption "b".toList OptionArg.NONE),
         Registered.ofInt (intOption "c".toList OptionArg.NONE)], noVariables⟩ ∧
    Parse [Registered.ofString (stringOption "a".toList OptionArg.NONE),
          Registered.ofString (stringOption "b".toList OptionArg.NONE),
          Registered.ofString (stringOption "c".toList OptionArg.NONE)] noVariables
        ["prog".toList, "-abc".toList] =
      ⟨.thrown (.parseFailed "a".toList []),
        [Registered.ofString (stringOption "a".toList OptionArg.NONE),
         Registered.ofString (stringOption "b".toList OptionArg.NONE),
         Registered.ofString (stringOption "c".toList OptionArg.NONE)], noVariables⟩ :=
  ⟨rfl, rfl⟩

/-- C7. Attached short value: for a token `-cREST` with `REST` non-empty and
`c` (a short option, so not `-`) resolving to a REQUIRED option, `Parse` makes
one call, `ParseValue(REST)` on that option, looks up no character of `REST`
and consumes no further token: if the call throws, so does `Parse`, and else
the scan goes on at the token that follows. The outcome is that of the two
tokens `-c`, `REST` in its place. -/
theorem parse_short_attached_value (options : List Registered) (mem : Memory) (c : Char)
    (REST : Str) (p : Nat) (ob : Registered) (prog : Str) (rest : List Str) (hc : c ≠ '-')
    (hrest : REST ≠ []) (hlook : GetOptionByName options [c] = .ok (p, ob))
    (hreq : ob.opt.arg = OptionArg.REQ) :
    Parse options mem (prog :: ('-' :: c :: REST) :: rest) =
        (match callParseValue options mem p ob REST with
         | ((options, mem), some e) => ⟨.thrown e, options, mem⟩
         | ((options, mem), none) => parseLoop options mem rest) ∧
      Parse options mem (prog :: ('-' :: c :: REST) :: rest) =
        Parse options mem (prog :: ['-', c] :: REST :: rest) := by
  obtain ⟨d, more, rfl⟩ : ∃ d more, REST = d :: more := by
    cases REST with
    | nil => exact absurd rfl hrest
    | cons d more => exact ⟨d, more, rfl⟩
  have h1 : Parse options mem (prog :: ('-' :: c :: d :: more) :: rest) =
      (match callParseValue options mem p ob (d :: more) with
       | ((options, mem), some e) => ⟨.thrown e, options, mem⟩
       | ((options, mem), none) => parseLoop options mem rest) := by
    simp only [Parse, List.drop_succ_cons, List.drop_zero]
    rw [parseLoop_cons, parseStep_short_multi options mem c d more _ hc]
    simp only [hlook, hreq, beq_self_eq_true, ↓reduceIte]
    cases hcp : callParseValue options mem p ob (d :: more) with
    | mk o err => cases err <;> rfl
  refine ⟨h1, ?_⟩
  rw [h1]
  simp only [Parse, List.drop_succ_cons, List.drop_zero]
  rw [parseLoop_cons, parseStep_short_single options mem c _ hc]
  simp only [hlook, List.head?_cons, List.tail_cons]
  cases hcp : callParseValue options mem p ob (d :: more) with
  | mk o err => cases err <;> rfl

/-- The attached form at `-x10`: `Value() == 10`. -/
theorem parse_short_attached_value_witness :
    Parse [Registered.ofInt (intOption "x".toList OptionArg.REQ)] noVariables
        ["program.exe".toList, "-x10".toList] =
      ⟨.returned, [Registered.ofInt
        { intOption "x".toList OptionArg.REQ with value := 10, is_set := true }],
        noVariables⟩ :=
  (parse_short_attached_value [Registered.ofInt (intOption "x".toList OptionArg.REQ)]
    noVariables 'x' "10".toList 0 (Registered.ofInt (intOption "x".toList OptionArg.REQ)) "program.exe".toList []
    (by decide) (by decide) rfl rfl).1


/-- Tokens of one character and tokens that do not start with `-` are passed
over. -/
theorem parseLoop_ignored (options : List Registered) (mem : Memory) :
    ∀ (pre rest : List Str), (∀ t ∈ pre, t.length = 1 ∨ t.head? ≠ some '-') →
      parseLoop options mem (pre ++ rest) = parseLoop options mem rest
  | [], rest, _ => rfl
  | t :: pre, rest, h => by
    rw [List.cons_append, parseLoop_cons,
      parseStep_ignored options mem t _ (h t (List.mem_cons_self _ _))]
    exact parseLoop_ignored options mem pre rest (fun u hu => h u (List.mem_cons_of_mem _ hu))

/-- C8. Unknown option: when `unknown` is an alias of no registered descriptor
and the first option token of the list (every token before it has one
character or does not start with `-`) is `--unknown` (non-empty, without
`=`), or `-c` or a cluster `-c...` with `c` that name (a short option, so not
`-`), `Parse` throws the unknown-option error for that name and leaves every
descriptor and every variable of the caller as it was. -/
theorem parse_unknown_option (options : List Registered) (mem : Memory) (prog : Str)
    (pre rest : List Str) (tok unknown : Str) (hpre : ∀ t ∈ pre, t.length = 1 ∨ t.head? ≠ some '-')
    (hunk : ∀ ob ∈ options, unknown ∉ ob.opt.names)
    (htok : (unknown ≠ [] ∧ '=' ∉ unknown ∧ tok = '-' :: '-' :: unknown) ∨
      (∃ c more, c ≠ '-' ∧ unknown = [c] ∧ tok = '-' :: c :: more)) :
    Parse options mem (prog :: (pre ++ tok :: rest)) =
      ⟨.thrown (.nonExistent unknown), options, mem⟩ := by
  have hget := GetOptionByName_error options unknown hunk
  simp only [Parse, List.drop_succ_cons, List.drop_zero]
  rw [parseLoop_ignored options mem pre (tok :: rest) hpre, parseLoop_cons]
  rcases htok with ⟨hne, heq, rfl⟩ | ⟨c, more, hc, rfl, rfl⟩
  · rw [parseStep_long_plain options mem unknown _ hne heq, hget]
  · cases more with
    | nil => rw [parseStep_short_single options mem c _ hc, hget]
    | cons d more => rw [parseStep_short_multi options mem c d more _ hc, hget]

/-- The spec example `["prog", "--unknown"]`. -/
theorem parse_unknown_option_witness :
    Parse [Registered.ofInt (intOption "x".toList OptionArg.REQ)] noVariables
        ["prog".toList, "--unknown".toList] =
      ⟨.thrown (.nonExistent "unknown".toList),
        [Registered.ofInt (intOption "x".toList OptionArg.REQ)], noVariables⟩ :=
  parse_unknown_option [Registered.ofInt (intOption "x".toList OptionArg.REQ)] noVariables
    "prog".toList [] [] "--unknown".toList "unknown".toList (by simp) (by decide)
    (Or.inl ⟨by decide, by decide, rfl⟩)


/-- C9. A missing value is not reported by the parser. On
`["program.exe", "-x"]` and on `["program.exe", "--x"]`, with `x` a REQUIRED
integer option, no `throw` statement of the header is reached: `Parse` runs
`argv[++i]` with `i + 1 == argc` and so reads `argv[argc]`, the null pointer
past the last token, to build the `std::string` argument of `ParseValue`,
which is undefined behaviour. No descriptor is changed before that. -/
theorem parse_missing_value_reads_past_end :
    Parse [Registered.ofInt (intOption "x".toList OptionArg.REQ)] noVariables
        ["program.exe".toList, "-x".toList] =
      ⟨.nullArg, [Registered.ofInt (intOption "x".toList OptionArg.REQ)], noVariables⟩ ∧
    Parse [Registered.ofInt (intOption "x".toList OptionArg.REQ)] noVariables
        ["program.exe".toList, "--x".toList] =
      ⟨.nullArg, [Registered.ofInt (intOption "x".toList OptionArg.REQ)], noVariables⟩ :=
  ⟨rfl, rfl⟩

/-! ## Conversion of the value text of an integer option -/

theorem isDigit_ne_of_lt (c d : Char) (h : c.isDigit = true) (hd : d.val.toNat < 48) :
    c ≠ d := by
  unfold Char.isDigit at h
  simp only [Bool.and_eq_true, decide_eq_true_eq, UInt32.le_def, BitVec.le_def] at h
  have h1 : (UInt32.toBitVec 48).toNat = 48 := rfl
  have h7 : c.val.toBitVec.toNat = c.val.toNat := rfl
  rw [h1, h7] at h
  intro hcd
  subst hcd
  omega

theorem readSign_cases (s : Str) :
    (∃ t, s = '-' :: t ∧ readSign s = (true, t)) ∨
      (∃ t, s = '+' :: t ∧ readSign s = (false, t)) ∨
      (readSign s = (false, s) ∧ s.head? ≠ some '-' ∧ s.head? ≠ some '+') := by
  cases s with
  | nil => right; right; exact ⟨rfl, by simp, by simp⟩
  | cons c t =>
    by_cases hm : c = '-'
    · subst hm; left; exact ⟨t, rfl, rfl⟩
    · by_cases hp : c = '+'
      · subst hp; right; left; exact ⟨t, rfl, rfl⟩
      · right; right
        exact ⟨readSign_unsigned c t hm hp, by simpa using hm, by simpa using hp⟩

theorem all_takeWhile {α : Type} (p : α → Bool) (l : List α) :
    (l.takeWhile p).all p = true := by
  induction l with
  | nil => rfl
  | cons a as ih =>
    by_cases ha : p a = true
    · simp [List.takeWhile, ha, ih]
    · simp [List.takeWhile, ha]

theorem head_dropWhile {α : Type} (p : α → Bool) (l : List α) (c : α)
    (h : (l.dropWhile p).head? = some c) : p c = false := by
  induction l with
  | nil => simp at h
  | cons a as ih =>
    by_cases ha : p a = true
    · simp only [List.dropWhile, ha] at h
      exact ih h
    · simp only [List.dropWhile, ha] at h
      simp only [List.head?_cons, Option.some.injEq] at h
      subst h
      simpa using ha

/-- A successful extraction has read a decimal literal at the head of the text,
after its leading white space, up to the first character that is not a digit. -/
theorem extractInt_some (raw : Str) (n : Int) (h : extractInt raw = some n) :
    ∃ lit tail, raw.dropWhile isspace = lit ++ tail ∧ IsDecimalLiteral lit = true ∧
      (∀ c, tail.head? = some c → c.isDigit = false) ∧ literalValue lit = n ∧
      INT_MIN ≤ n ∧ n ≤ INT_MAX := by
  obtain ⟨sg, hsg⟩ : ∃ sg, sg = readSign (raw.dropWhile isspace) := ⟨_, rfl⟩
  have h' : (if (sg.2.takeWhile Char.isDigit).isEmpty = true then none
      else if INT_MIN ≤ (if sg.1 = true then -(digitsValue (sg.2.takeWhile Char.isDigit) : Int)
                else (digitsValue (sg.2.takeWhile Char.isDigit) : Int)) ∧
            (if sg.1 = true then -(digitsValue (sg.2.takeWhile Char.isDigit) : Int)
                else (digitsValue (sg.2.takeWhile Char.isDigit) : Int)) ≤ INT_MAX
        then some (if sg.1 = true then -(digitsValue (sg.2.takeWhile Char.isDigit) : Int)
                else (digitsValue (sg.2.takeWhile Char.isDigit) : Int))
        else none) = some n := by
    rw [hsg]; exact h
  by_cases hds : (sg.2.takeWhile Char.isDigit).isEmpty = true
  · rw [if_pos hds] at h'
    cases h'
  rw [if_neg hds] at h'
  by_cases hrange : INT_MIN ≤ (if sg.1 = true then
        -(digitsValue (sg.2.takeWhile Char.isDigit) : Int)
      else (digitsValue (sg.2.takeWhile Char.isDigit) : Int)) ∧
      (if sg.1 = true then -(digitsValue (sg.2.takeWhile Char.isDigit) : Int)
        else (digitsValue (sg.2.takeWhile Char.isDigit) : Int)) ≤ INT_MAX
  swap
  · rw [if_neg hrange] at h'
    cases h'
  rw [if_pos hrange] at h'
  simp only [Option.some.injEq] at h'
  rw [h'] at hrange
  have hds' : sg.2.takeWhile Char.isDigit ≠ [] := by
    simpa using hds
  rcases readSign_cases (raw.dropWhile isspace) with ⟨t, hs, hr⟩ | ⟨t, hs, hr⟩ | ⟨hr, -, -⟩
  · rw [hr] at hsg
    subst hsg
    simp only [↓reduceIte] at hds' h'
    refine ⟨'-' :: t.takeWhile Char.isDigit, t.dropWhile Char.isDigit, ?_, ?_, ?_, ?_,
      hrange.1, hrange.2⟩
    · rw [hs, List.cons_append, List.takeWhile_append_dropWhile]
    · simp only [IsDecimalLiteral, literalDigits, Bool.and_eq_true, Bool.not_eq_true',
        List.isEmpty_eq_false]
      exact ⟨hds', all_takeWhile _ _⟩
    · exact fun c hc => head_dropWhile _ _ c hc
    · simpa [literalValue] using h'
  · rw [hr] at hsg
    subst hsg
    simp only [Bool.false_eq_true, ↓reduceIte] at hds' h'
    refine ⟨'+' :: t.takeWhile Char.isDigit, t.dropWhile Char.isDigit, ?_, ?_, ?_, ?_,
      hrange.1, hrange.2⟩
    · rw [hs, List.cons_append, List.takeWhile_append_dropWhile]
    · simp only [IsDecimalLiteral, literalDigits, Bool.and_eq_true, Bool.not_eq_true',
        List.isEmpty_eq_false]
      exact ⟨hds', all_takeWhile _ _⟩
    · exact fun c hc => head_dropWhile _ _ c hc
    · simpa [literalValue] using h'
  · rw [hr] at hsg
    subst hsg
    simp only [Bool.false_eq_true, ↓reduceIte] at hds' h'
    generalize raw.dropWhile isspace = s at *
    have hall := all_takeWhile Char.isDigit s
    obtain ⟨c, ds, hd⟩ : ∃ c ds, s.takeWhile Char.isDigit = c :: ds := by
      cases hd : s.takeWhile Char.isDigit with
      | nil => exact absurd hd hds'
      | cons c ds => exact ⟨c, ds, rfl⟩
    have hcd : c.isDigit = true := by
      rw [hd] at hall
      simp only [List.all_cons, Bool.and_eq_true] at hall
      exact hall.1
    have hm := isDigit_ne_of_lt c '-' hcd (by decide)
    have hp := isDigit_ne_of_lt c '+' hcd (by decide)
    refine ⟨s.takeWhile Char.isDigit, s.dropWhile Char.isDigit, ?_, ?_, ?_, ?_,
      hrange.1, hrange.2⟩
    · rw [List.takeWhile_append_dropWhile]
    · rw [hd] at hall ⊢
      simp only [IsDecimalLiteral, literalDigits_unsigned c ds hm hp, Bool.and_eq_true,
        Bool.not_eq_true', List.isEmpty_cons, true_and]
      exact hall
    · exact fun c hc => head_dropWhile _ _ c hc
    · rw [hd] at h' ⊢
      rw [literalValue_unsigned c ds hm hp]
      exact h'

theorem dropWhile_append_of_all {α : Type} (p : α → Bool) (ws l : List α)
    (h : ∀ c ∈ ws, p c = true) : (ws ++ l).dropWhile p = l.dropWhile p := by
  induction ws with
  | nil => rfl
  | cons a as ih =>
    have ha : p a = true := h a (List.mem_cons_self _ _)
    simp only [List.cons_append, List.dropWhile, ha]
    exact ih (fun c hc => h c (List.mem_cons_of_mem _ hc))

theorem takeWhile_append_of_all {α : Type} (p : α → Bool) (l tail : List α)
    (h : l.all p = true) (ht : ∀ c, tail.head? = some c → p c = false) :
    (l ++ tail).takeWhile p = l := by
  induction l with
  | nil =>
    cases tail with
    | nil => rfl
    | cons c cs => simp [List.takeWhile, ht c rfl]
  | cons a as ih =>
    simp only [List.all_cons, Bool.and_eq_true] at h
    simp [List.takeWhile, h.1, ih h.2]

/-- The extraction skips leading white space, reads a decimal literal up to
the first character that is not a digit, and does not look at what follows:
it yields the integer the literal denotes when that fits an `int`, and fails
otherwise. -/
theorem extractInt_leading_literal (ws lit tail : Str) (hws : ∀ c ∈ ws, isspace c = true)
    (h : IsDecimalLiteral lit = true) (htail : ∀ c, tail.head? = some c → c.isDigit = false) :
    extractInt (ws ++ lit ++ tail) =
      if INT_MIN ≤ literalValue lit ∧ literalValue lit ≤ INT_MAX then some (literalValue lit)
      else none := by
  unfold IsDecimalLiteral at h
  simp only [Bool.and_eq_true, Bool.not_eq_true', List.isEmpty_eq_false] at h
  obtain ⟨hne, hall⟩ := h
  rw [List.append_assoc]
  unfold extractInt
  rw [dropWhile_append_of_all isspace ws (lit ++ tail) hws]
  cases lit with
  | nil => simp [literalDigits] at hne
  | cons c t =>
    by_cases hm : c = '-'
    · subst hm
      have hne2 : t ≠ [] := by simpa [literalDigits] using hne
      have hall2 : t.all Char.isDigit = true := by simpa [literalDigits] using hall
      have ht : (t ++ tail).takeWhile Char.isDigit = t :=
        takeWhile_append_of_all _ _ _ hall2 htail
      simp [readSign, literalValue, List.dropWhile, isspace, ht, hne2]
    · by_cases hp : c = '+'
      · subst hp
        have hne2 : t ≠ [] := by simpa [literalDigits] using hne
        have hall2 : t.all Char.isDigit = true := by simpa [literalDigits] using hall
        have ht : (t ++ tail).takeWhile Char.isDigit = t :=
          takeWhile_append_of_all _ _ _ hall2 htail
        simp [readSign, literalValue, List.dropWhile, isspace, ht, hne2]
      · rw [literalDigits_unsigned c t hm hp] at hall
        have ht : (c :: t ++ tail).takeWhile Char.isDigit = c :: t :=
          takeWhile_append_of_all _ _ _ hall htail
        have hcd : c.isDigit = true := by
          simp only [List.all_cons, Bool.and_eq_true] at hall
          exact hall.1
        have hsp := isspace_of_isDigit c hcd
        rw [literalValue_unsigned c t hm hp]
        have hdw : List.dropWhile isspace (c :: t ++ tail) = c :: (t ++ tail) := by
          simp [List.dropWhile, hsp]
        rw [hdw, readSign_unsigned c (t ++ tail) hm hp]
        have ht2 : List.takeWhile Char.isDigit (c :: (t ++ tail)) = c :: t := ht
        simp [ht2, hcd]

/-- A call that throws leaves the descriptor and the variables of the caller
as they were, and the exception is one of the two of `ParseValue`. -/
theorem ParseValue_thrown {T : Type} (extract : Str → Option T)
    (o : TypedOption T) (mem : Memory) (strVal : Str) (e : Error)
    (h : (o.ParseValue extract mem strVal).2 = some e) :
    (o.ParseValue extract mem strVal).1 = (o, mem) ∧
      (e = .parseFailed o.GetLongestName strVal ∨
        e = .checkFailed o.GetLongestName strVal) := by
  unfold TypedOption.ParseValue at h ⊢
  split
  · rename_i hx
    simp only [hx, Option.some.injEq] at h
    exact ⟨rfl, Or.inl h.symm⟩
  · split
    · rename_i hx hchk
      simp only [hx, hchk, ↓reduceIte, Option.some.injEq] at h
      exact ⟨rfl, Or.inr h.symm⟩
    · rename_i hx hchk
      simp only [hx, hchk] at h
      simp at h

/-- A call that returns has extracted a value the validator accepts, and has
stored it in the descriptor and in the variable the descriptor is bound to. -/
theorem ParseValue_returned {T : Type} (extract : Str → Option T)
    (o : TypedOption T) (mem : Memory) (strVal : Str)
    (h : (o.ParseValue extract mem strVal).2 = none) :
    ∃ v, extract strVal = some v ∧ (∀ f, o.check = some f → f v = true) ∧
      (o.ParseValue extract mem strVal).1 =
        ({ o with value := v, is_set := true }, mem.store o.var_ptr ⟨T, v⟩) := by
  cases hx : extract strVal with
  | none => simp [TypedOption.ParseValue, hx] at h
  | some v =>
    have hc : ∀ f, o.check = some f → f v = true := by
      intro f hf
      by_contra hfv
      simp [TypedOption.ParseValue, hx, hf, hfv] at h
    refine ⟨v, rfl, hc, ?_⟩
    rw [ParseValue_accept extract o mem strVal v hx hc]

/-- C10, as amended. Conversion for an integer option. `ParseValue(rawText)`
succeeds if and only if `rawText` is white space `ws`, then a decimal integer
literal `lit` (optional sign, digits) within the range of `int`, then a text
`tail` that does not start with a digit, and the validator, if any, accepts
the value of `lit`. Both directions are stated: every call that succeeds has
such a text, and every such text is accepted. The call then stores the value
of `lit` in `value` and in the bound variable and sets `is_set`: the white
space before the literal is skipped and the characters behind it are not
looked at. It fails with the parse error when `rawText` is empty and when it
is a literal out of range; and on every failure, which is a parse error or a
check error, the descriptor (`value`, `is_set`) and the variables of the
caller, the bound one included, are unchanged. -/
theorem parseValue_int_conversion (o : TypedOption Int) (mem : Memory) :
    (∀ raw, (o.ParseValue extractInt mem raw).2 = none →
      ∃ ws lit tail, raw = ws ++ lit ++ tail ∧ (∀ c ∈ ws, isspace c = true) ∧
        raw.dropWhile isspace = lit ++ tail ∧ IsDecimalLiteral lit = true ∧
        (∀ c, tail.head? = some c → c.isDigit = false) ∧
        INT_MIN ≤ literalValue lit ∧ literalValue lit ≤ INT_MAX ∧
        (∀ f, o.check = some f → f (literalValue lit) = true) ∧
        (o.ParseValue extractInt mem raw).1 =
          ({ o with value := literalValue lit, is_set := true },
            mem.store o.var_ptr ⟨Int, literalValue lit⟩)) ∧
    (∀ ws lit tail, (∀ c ∈ ws, isspace c = true) → IsDecimalLiteral lit = true →
      (∀ c, tail.head? = some c → c.isDigit = false) →
      INT_MIN ≤ literalValue lit → literalValue lit ≤ INT_MAX →
      (∀ f, o.check = some f → f (literalValue lit) = true) →
      o.ParseValue extractInt mem (ws ++ lit ++ tail) =
        (({ o with value := literalValue lit, is_set := true },
          mem.store o.var_ptr ⟨Int, literalValue lit⟩), none)) ∧
    o.ParseValue extractInt mem [] = ((o, mem), some (.parseFailed o.GetLongestName [])) ∧
    (∀ lit, IsDecimalLiteral lit = true →
      ¬ (INT_MIN ≤ literalValue lit ∧ literalValue lit ≤ INT_MAX) →
      o.ParseValue extractInt mem lit =
        ((o, mem), some (.parseFailed o.GetLongestName lit))) ∧
    (∀ raw e, (o.ParseValue extractInt mem raw).2 = some e →
      (o.ParseValue extractInt mem raw).1 = (o, mem) ∧
        (e = .parseFailed o.GetLongestName raw ∨ e = .checkFailed o.GetLongestName raw)) := by
  refine ⟨?_, ?_, rfl, ?_, ?_⟩
  · intro raw h
    obtain ⟨v, hx, hc, hres⟩ := ParseValue_returned extractInt o mem raw h
    obtain ⟨lit, tail, h1, h2, h3, h4, h5, h6⟩ := extractInt_some raw v hx
    subst h4
    refine ⟨raw.takeWhile isspace, lit, tail, ?_, ?_, h1, h2, h3, h5, h6, hc, hres⟩
    · rw [List.append_assoc, ← h1, List.takeWhile_append_dropWhile]
    · intro c hc'
      exact List.mem_takeWhile_imp hc'
  · intro ws lit tail hws hlit htail hlo hhi hc
    have hx : extractInt (ws ++ lit ++ tail) = some (literalValue lit) := by
      rw [extractInt_leading_literal ws lit tail hws hlit htail, if_pos ⟨hlo, hhi⟩]
    exact ParseValue_accept extractInt o mem (ws ++ lit ++ tail) (literalValue lit) hx hc
  · intro lit hlit hrange
    have hx : extractInt lit = none := by
      rw [extractInt_literal lit hlit, if_neg hrange]
    simp [TypedOption.ParseValue, hx]
  · intro raw e h
    exact ParseValue_thrown extractInt o mem raw e h

/-- C10 as stated fails: `10abc` is not a decimal literal, yet `ParseValue`
accepts it and stores 10; so it does `" 10"`, with a leading blank. -/
theorem parseValue_int_trailing_text_accepted :
    IsDecimalLiteral "10abc".toList = false ∧
    (intOption "x".toList OptionArg.REQ).ParseValue extractInt noVariables "10abc".toList =
      (({ intOption "x".toList OptionArg.REQ with value := 10, is_set := true },
        noVariables), none) ∧
    IsDecimalLiteral " 10".toList = false ∧
    (intOption "x".toList OptionArg.REQ).ParseValue extractInt noVariables " 10".toList =
      (({ intOption "x".toList OptionArg.REQ with value := 10, is_set := true },
        noVariables), none) :=
  ⟨by decide, rfl, by decide, rfl⟩

/-! ## The descriptor: validator, defaults, alias shape -/

/-- C11. Validator rejection is atomic: for every descriptor state, validator
`check` and text that converts to a value `v`, `ParseValue` throws the
check-failed error and leaves the descriptor (`value`, `is_set`) and every
variable of the caller, the bound one included, exactly as it was when
`check(v)` is false; and when `check(v)` is true, or no validator is set, it
succeeds and stores `v`, in `value` and in the bound variable. -/
theorem parseValue_validator_atomic {T : Type} (extract : Str → Option T) (o : TypedOption T)
    (mem : Memory) (raw : Str) (v : T) (hx : extract raw = some v) :
    (∀ check, o.check = some check → check v = false →
      o.ParseValue extract mem raw = ((o, mem), some (.checkFailed o.GetLongestName raw))) ∧
    (∀ check, o.check = some check → check v = true →
      o.ParseValue extract mem raw =
        (({ o with value := v, is_set := true }, mem.store o.var_ptr ⟨T, v⟩), none)) ∧
    (o.check = none →
      o.ParseValue extract mem raw =
        (({ o with value := v, is_set := true }, mem.store o.var_ptr ⟨T, v⟩), none)) := by
  refine ⟨?_, ?_, ?_⟩
  · intro check hc hv
    simp [TypedOption.ParseValue, hx, hc, hv]
  · intro check hc hv
    exact ParseValue_accept extract o mem raw v hx
      (fun f hf => by rw [hc] at hf; cases hf; exact hv)
  · intro hc
    exact ParseValue_accept extract o mem raw v hx (fun f hf => by rw [hc] at hf; cases hf)

/-- C11 on an unset option, bound to the variable `x`, whose validator rejects
10: it stays unset, and `x` keeps its content. -/
theorem parseValue_validator_atomic_witness :
    (((intOption "x".toList OptionArg.REQ).Bind 0).Check belowFive).ParseValue extractInt
        intAtZero "10".toList =
      ((((intOption "x".toList OptionArg.REQ).Bind 0).Check belowFive, intAtZero),
        some (.checkFailed "x".toList "10".toList)) :=
  (parseValue_validator_atomic extractInt
    (((intOption "x".toList OptionArg.REQ).Bind 0).Check belowFive) intAtZero
    "10".toList 10 rfl).1 belowFive rfl rfl

/-- C13. Defaults: `Default(d)` throws a `std::logic_error`, and leaves the
descriptor as it was, exactly when the arity is REQUIRED or NONE; on an OPTIONAL
option it succeeds: the object and the copy returned both hold `value == d`,
`is_set` is not touched (so still false on a fresh option), and `Value()` is
`d`, also after every `ParseValue` that fails. -/
theorem default_only_for_optional {T : Type} (o : TypedOption T) (d : T) :
    ((∃ e, (o.Default d).2 = .error e ∧ e.isInvalidArgument = false) ↔
        (o.arg = OptionArg.REQ ∨ o.arg = OptionArg.NONE)) ∧
    (∀ e, (o.Default d).2 = .error e → (o.Default d).1 = o) ∧
    (o.arg = OptionArg.OPT →
      o.Default d = ({ o with value := d }, .ok { o with value := d }) ∧
      (o.Default d).1.Value = d ∧ (o.Default d).1.is_set = o.is_set ∧
      ∀ (extract : Str → Option T) (mem : Memory) (raw : Str) (e : Error),
        ((o.Default d).1.ParseValue extract mem raw).2 = some e →
        ((o.Default d).1.ParseValue extract mem raw).1.1.Value = d) := by
  cases harg : o.arg
  · refine ⟨?_, ?_, ?_⟩
    · simp [TypedOption.Default, harg]
    · simp [TypedOption.Default, harg]
    · intro _
      have hd : o.Default d = ({ o with value := d }, .ok { o with value := d }) := by
        simp [TypedOption.Default, harg]
      refine ⟨hd, by rw [hd]; rfl, by rw [hd], ?_⟩
      intro extract mem raw e he
      rw [(ParseValue_thrown extract _ mem raw e he).1, hd]
      rfl
  · refine ⟨?_, ?_, ?_⟩
    · simp [TypedOption.Default, harg, Error.isInvalidArgument]
    · simp [TypedOption.Default, harg]
    · intro h; cases h
  · refine ⟨?_, ?_, ?_⟩
    · simp [TypedOption.Default, harg, Error.isInvalidArgument]
    · simp [TypedOption.Default, harg]
    · intro h; cases h

/-- C17, as amended. Alias shape: every alias of every successfully constructed
option consists only of characters of `[A-Za-z0-9-]` (it need not hold an
alphanumeric character). -/
theorem constructed_names_allowed_chars {T : Type} (init : T) (nmes : List Str)
    (arg : OptionArg) (desc : Str) (o : TypedOption T)
    (h : TypedOption.new init nmes arg desc = .ok o) :
    ∀ n ∈ o.names, ∀ c ∈ n, AllowedNameChar c := by
  unfold TypedOption.new at h
  cases hb : OptionBase.new nmes arg desc with
  | error e => rw [hb] at h; cases h
  | ok b =>
    rw [hb] at h
    cases h
    have hb2 := OptionBase_new_ok nmes arg desc b hb
    subst hb2
    intro n hn c hc
    by_contra hbad
    obtain ⟨e, he⟩ := (OptionBase_new_error_iff nmes arg desc).mpr (Or.inr ⟨n, hn, c, hc, hbad⟩)
    rw [hb] at he
    cases he

/-- The amended C17 at the option of the tests, `Option<int>({"x"}, REQ)`. -/
theorem constructed_names_allowed_chars_witness : AllowedNameChar 'x' :=
  constructed_names_allowed_chars (0 : Int) ["x".toList] OptionArg.REQ "desc".toList
    (intOption "x".toList OptionArg.REQ) rfl "x".toList (by simp [intOption]) 'x' (by simp)

/-- C17 as stated fails: constructing an option with the alias `-`, `--` or
the empty alias succeeds, and `-` holds no alphanumeric character. -/
theorem construct_accepts_hyphen_only_names :
    TypedOption.new (0 : Int) ["-".toList] OptionArg.REQ "desc".toList =
      .ok (intOption "-".toList OptionArg.REQ) ∧
    TypedOption.new (0 : Int) ["--".toList] OptionArg.REQ "desc".toList =
      .ok (intOption "--".toList OptionArg.REQ) ∧
    TypedOption.new (0 : Int) ["".toList] OptionArg.REQ "desc".toList =
      .ok (intOption "".toList OptionArg.REQ) ∧
    (∀ c ∈ "-".toList, c.isAlphanum = false) :=
  ⟨rfl, rfl, rfl, by decide⟩

/-! ## Lookup: the first match in registration order -/

/-- C16. A two-character short option eats the next token whatever its arity.
With `v` an integer option of arity NONE, `Parse` on `["prog", "-v", "5"]`
hands `v` the text `5`, not the empty text, and stores 5; on `["prog", "-v"]`
it reads past the end of `argv`; the long form `["prog", "--v", "5"]` does
test the arity and hands `v` the empty text. -/
theorem parse_short_flag_eats_next_token :
    Parse [Registered.ofInt (intOption "v".toList OptionArg.NONE)] noVariables
        ["prog".toList, "-v".toList, "5".toList] =
      ⟨.returned, [Registered.ofInt
        { intOption "v".toList OptionArg.NONE with value := 5, is_set := true }],
        noVariables⟩ ∧
    Parse [Registered.ofInt (intOption "v".toList OptionArg.NONE)] noVariables
        ["prog".toList, "-v".toList] =
      ⟨.nullArg, [Registered.ofInt (intOption "v".toList OptionArg.NONE)], noVariables⟩ ∧
    Parse [Registered.ofInt (intOption "v".toList OptionArg.NONE)] noVariables
        ["prog".toList, "--v".toList, "5".toList] =
      ⟨.thrown (.parseFailed "v".toList []),
        [Registered.ofInt (intOption "v".toList OptionArg.NONE)], noVariables⟩ :=
  ⟨rfl, rfl, rfl⟩

/-- A second `ParseValue` with the same text, on the descriptor and the memory
the first call left, ends as the first did: the same error, or the same stored
state. -/
theorem ParseValue_idem {T : Type} (extract : Str → Option T) (o : TypedOption T)
    (mem : Memory) (raw : Str) :
    (o.ParseValue extract mem raw).1.1.ParseValue extract (o.ParseValue extract mem raw).1.2
        raw =
      o.ParseValue extract mem raw := by
  cases hres : (o.ParseValue extract mem raw).2 with
  | some e =>
    rw [(ParseValue_thrown extract o mem raw e hres).1]
  | none =>
    obtain ⟨v, hx, hc, hst⟩ := ParseValue_returned extract o mem raw hres
    have h2 := ParseValue_accept extract { o with value := v, is_set := true }
      (mem.store o.var_ptr ⟨T, v⟩) raw v hx hc
    rw [hst, ParseValue_accept extract o mem raw v hx hc, h2]
    simp only [Memory_store_idem]

/-- After a successful call through the pointer, looking the name up again and
parsing the same text again changes nothing. -/
theorem callParseValue_idem (options : List Registered) (mem : Memory) (name strVal : Str)
    (p : Nat) (ob : Registered) (hlook : GetOptionByName options name = .ok (p, ob))
    (hok : (callParseValue options mem p ob strVal).2 = none) :
    lookupParseValue (callParseValue options mem p ob strVal).1.1
        (callParseValue options mem p ob strVal).1.2 name strVal =
      ((callParseValue options mem p ob strVal).1, none) := by
  have hok' : (ob.opt.ParseValue ob.extract mem strVal).2 = none := hok
  obtain ⟨v, hx, hc, -⟩ := ParseValue_returned ob.extract ob.opt mem strVal hok'
  have hpv := virtual_ParseValue_withValue ob mem strVal v hx hc
  simp only [callParseValue, hpv]
  exact lookupParseValue_again options mem name strVal p ob v hlook hx hc

/-- C20. Double dispatch of the long form is harmless: `ParseValue` is
idempotent (a second call with the same text on the descriptor and the
variables the first call left gives the same result, error or stored state,
the validator being a pure function), and so the branch for `--name` without
`=`, which looks `name` up twice and calls `ParseValue` twice with the same
text, ends as one lookup followed by one `ParseValue` does. -/
theorem long_form_double_dispatch (options : List Registered) (mem : Memory) (name : Str)
    (p : Nat) (ob : Registered) (nextArg : Option Str) (hne : name ≠ []) (heq : '=' ∉ name)
    (hlook : GetOptionByName options name = .ok (p, ob)) :
    (∀ (T : Type) (extract : Str → Option T) (o : TypedOption T) (mem : Memory) (raw : Str),
      (o.ParseValue extract mem raw).1.1.ParseValue extract
          (o.ParseValue extract mem raw).1.2 raw =
        o.ParseValue extract mem raw) ∧
    parseStep options mem ('-' :: '-' :: name) nextArg =
      if ob.opt.arg != OptionArg.NONE then
        match nextArg with
        | none => .nullArg options mem
        | some val =>
          match callParseValue options mem p ob val with
          | ((options, mem), some e) => .thrown e options mem
          | ((options, mem), none) => .skip options mem
      else
        match callParseValue options mem p ob [] with
        | ((options, mem), some e) => .thrown e options mem
        | ((options, mem), none) => .next options mem := by
  refine ⟨fun T extract o mem raw => ParseValue_idem extract o mem raw, ?_⟩
  rw [parseStep_long_plain options mem name nextArg hne heq]
  simp only [hlook]
  split
  · cases nextArg with
    | none => rfl
    | some val =>
      simp only
      cases hcp : callParseValue options mem p ob val with
      | mk om err =>
        obtain ⟨o, m⟩ := om
        cases err with
        | some e => rfl
        | none =>
          have hid := callParseValue_idem options mem name val p ob hlook (by rw [hcp])
          rw [hcp] at hid
          simp only [hid]
  · cases hcp : callParseValue options mem p ob [] with
    | mk om err =>
      obtain ⟨o, m⟩ := om
      cases err with
      | some e => rfl
      | none =>
        have hid := callParseValue_idem options mem name [] p ob hlook (by rw [hcp])
        rw [hcp] at hid
        simp only [hid]

/-- C20 at `--x 10`: the step stores 10 once and consumes the value. -/
theorem long_form_double_dispatch_witness :
    parseStep [Registered.ofInt (intOption "x".toList OptionArg.REQ)] noVariables
        "--x".toList (some "10".toList) =
      .skip [Registered.ofInt
        { intOption "x".toList OptionArg.REQ with value := 10, is_set := true }]
        noVariables :=
  (long_form_double_dispatch [Registered.ofInt (intOption "x".toList OptionArg.REQ)]
    noVariables "x".toList 0 (Registered.ofInt (intOption "x".toList OptionArg.REQ)) (some "10".toList)
    (by decide) (by decide) rfl).2



/-! ## What a parse pass may do to a descriptor and to a variable -/

/-- A descriptor left alone is one a parse pass may leave. -/
theorem ParsedFrom_refl (ob : Registered) : ob.ParsedFrom ob := Or.inl rfl

/-- A later successful parse overwrites what an earlier one stored. -/
theorem withValue_withValue (ob : Registered) (v w : ob.T) :
    (ob.withValue v).withValue w = ob.withValue w := rfl

theorem ParsedFrom_trans (a b c : Registered) (hab : a.ParsedFrom b) (hbc : b.ParsedFrom c) :
    a.ParsedFrom c := by
  rcases hab with rfl | ⟨v, rfl⟩
  · exact hbc
  · rcases hbc with rfl | ⟨w, rfl⟩
    · exact Or.inr ⟨v, rfl⟩
    · exact Or.inr ⟨w, withValue_withValue a v w⟩

/-- One call of `ParseValue` leaves the descriptor alone (it threw) or stores
the value it extracted. -/
theorem ParsedFrom_ParseValue (ob : Registered) (mem : Memory) (strVal : Str) :
    ob.ParsedFrom (ob.ParseValue mem strVal).1.1 := by
  cases hres : (ob.opt.ParseValue ob.extract mem strVal).2 with
  | some e =>
    left
    have h := (ParseValue_thrown ob.extract ob.opt mem strVal e hres).1
    simp only [Registered.ParseValue, h]
  | none =>
    right
    obtain ⟨v, hx, hc, -⟩ := ParseValue_returned ob.extract ob.opt mem strVal hres
    exact ⟨v, by rw [virtual_ParseValue_withValue ob mem strVal v hx hc]⟩

/-- Descriptor by descriptor, the second registry is what a parse pass may make
of the first. -/
theorem parsedFrom_list_refl (l : List Registered) : List.Forall₂ Registered.ParsedFrom l l := by
  induction l with
  | nil => exact List.Forall₂.nil
  | cons a as ih => exact List.Forall₂.cons (ParsedFrom_refl a) ih

theorem parsedFrom_list_trans {l₁ l₂ l₃ : List Registered}
    (h₁ : List.Forall₂ Registered.ParsedFrom l₁ l₂)
    (h₂ : List.Forall₂ Registered.ParsedFrom l₂ l₃) :
    List.Forall₂ Registered.ParsedFrom l₁ l₃ := by
  induction h₁ generalizing l₃ with
  | nil => cases h₂; exact List.Forall₂.nil
  | cons hab _ ih =>
    cases h₂ with
    | cons hbc h₂' => exact List.Forall₂.cons (ParsedFrom_trans _ _ _ hab hbc) (ih h₂')

theorem parsedFrom_list_set (l : List Registered) (p : Nat) (ob ob' : Registered)
    (hget : l[p]? = some ob) (h : ob.ParsedFrom ob') :
    List.Forall₂ Registered.ParsedFrom l (l.set p ob') := by
  induction l generalizing p with
  | nil => simp at hget
  | cons a as ih =>
    cases p with
    | zero =>
      simp only [List.getElem?_cons_zero, Option.some.injEq] at hget
      subst hget
      exact List.Forall₂.cons h (parsedFrom_list_refl as)
    | succ p =>
      simp only [List.getElem?_cons_succ] at hget
      exact List.Forall₂.cons (ParsedFrom_refl a) (ih p hget)

theorem parsedFrom_list_get {l₁ l₂ : List Registered}
    (h : List.Forall₂ Registered.ParsedFrom l₁ l₂) (i : Nat) (ob : Registered)
    (hget : l₁[i]? = some ob) : ∃ ob', l₂[i]? = some ob' ∧ ob.ParsedFrom ob' := by
  induction h generalizing i with
  | nil => simp at hget
  | cons hab _ ih =>
    cases i with
    | zero =>
      simp only [List.getElem?_cons_zero, Option.some.injEq] at hget
      subst hget
      exact ⟨_, by simp, hab⟩
    | succ i =>
      simp only [List.getElem?_cons_succ] at hget ⊢
      exact ih i hget

theorem lookupParseValue_rel
    (R : List Registered × Memory → List Registered × Memory → Prop) (hrefl : ∀ s, R s s)
    (hcall : ∀ options mem p ob strVal, options[p]? = some ob →
      R (options, mem) (callParseValue options mem p ob strVal).1)
    (options : List Registered) (mem : Memory) (name strVal : Str) :
    R (options, mem) (lookupParseValue options mem name strVal).1 := by
  unfold lookupParseValue
  cases hg : GetOptionByName options name with
  | error e => exact hrefl _
  | ok found =>
    obtain ⟨p, ob⟩ := found
    exact hcall options mem p ob strVal (GetOptionByName_ok options name p ob hg).1

theorem clusterLoop_rel
    (R : List Registered × Memory → List Registered × Memory → Prop) (hrefl : ∀ s, R s s)
    (htrans : ∀ s₁ s₂ s₃, R s₁ s₂ → R s₂ s₃ → R s₁ s₃)
    (hcall : ∀ options mem p ob strVal, options[p]? = some ob →
      R (options, mem) (callParseValue options mem p ob strVal).1)
    (key : Str) :
    ∀ (options : List Registered) (mem : Memory),
      R (options, mem) (clusterLoop options mem key).1 := by
  induction key with
  | nil => intro options mem; exact hrefl _
  | cons c rest ih =>
    intro options mem
    unfold clusterLoop
    have h1 := lookupParseValue_rel R hrefl hcall options mem [c] []
    cases hl : lookupParseValue options mem [c] [] with
    | mk om err =>
      obtain ⟨o, m⟩ := om
      rw [hl] at h1
      cases err with
      | some e => exact h1
      | none => exact htrans _ _ _ h1 (ih o m)

/-- One iteration of the loop changes the registry and the variables through
`ParseValue` only. -/
theorem parseStep_rel
    (R : List Registered × Memory → List Registered × Memory → Prop) (hrefl : ∀ s, R s s)
    (htrans : ∀ s₁ s₂ s₃, R s₁ s₂ → R s₂ s₃ → R s₁ s₃)
    (hcall : ∀ options mem p ob strVal, options[p]? = some ob →
      R (options, mem) (callParseValue options mem p ob strVal).1)
    (options : List Registered) (mem : Memory) (key : Str) (nextArg : Option Str) :
    R (options, mem)
      ((parseStep options mem key nextArg).state, (parseStep options mem key nextArg).memory) := by
  rcases token_shapes key with h | h | ⟨name, hne, h⟩ | ⟨c, hc, h⟩ | ⟨c, d, more, hc, h⟩
  · rw [parseStep_ignored options mem key _ h]
    exact hrefl _
  · subst h
    rw [parseStep_terminator]
    exact hrefl _
  · subst h
    by_cases heq : '=' ∈ name
    · rw [parseStep_long_equals options mem name _ heq]
      have h1 := lookupParseValue_rel R hrefl hcall options mem (name.take 1) (name.drop 1)
      cases hl : lookupParseValue options mem (name.take 1) (name.drop 1) with
      | mk om err =>
        obtain ⟨o, m⟩ := om
        rw [hl] at h1
        cases err <;> exact h1
    · rw [parseStep_long_plain options mem name _ hne heq]
      cases hg : GetOptionByName options name with
      | error e => exact hrefl _
      | ok found =>
        obtain ⟨p, opt⟩ := found
        have hget := (GetOptionByName_ok options name p opt hg).1
        simp only
        split
        · cases nextArg with
          | none => exact hrefl _
          | some val =>
            have h1 := hcall options mem p opt val hget
            cases hcp : callParseValue options mem p opt val with
            | mk om err =>
              obtain ⟨o, m⟩ := om
              rw [hcp] at h1
              simp only [hcp]
              cases err with
              | some e => exact h1
              | none =>
                have h2 := lookupParseValue_rel R hrefl hcall o m name val
                cases hl : lookupParseValue o m name val with
                | mk om2 err2 =>
                  obtain ⟨o2, m2⟩ := om2
                  rw [hl] at h2
                  simp only [hl]
                  cases err2 <;> exact htrans _ _ _ h1 h2
        · have h1 := hcall options mem p opt [] hget
          cases hcp : callParseValue options mem p opt [] with
          | mk om err =>
            obtain ⟨o, m⟩ := om
            rw [hcp] at h1
            cases err with
            | some e => exact h1
            | none =>
              have h2 := lookupParseValue_rel R hrefl hcall o m name []
              cases hl : lookupParseValue o m name [] with
              | mk om2 err2 =>
                obtain ⟨o2, m2⟩ := om2
                rw [hl] at h2
                simp only [hl]
                cases err2 <;> exact htrans _ _ _ h1 h2
  · subst h
    rw [parseStep_short_single options mem c _ hc]
    cases hg : GetOptionByName options [c] with
    | error e => exact hrefl _
    | ok found =>
      obtain ⟨p, opt⟩ := found
      have hget := (GetOptionByName_ok options [c] p opt hg).1
      cases nextArg with
      | none => exact hrefl _
      | some val =>
        have h1 := hcall options mem p opt val hget
        cases hcp : callParseValue options mem p opt val with
        | mk om err =>
          obtain ⟨o, m⟩ := om
          rw [hcp] at h1
          simp only [hcp]
          cases err <;> exact h1
  · subst h
    rw [parseStep_short_multi options mem c d more _ hc]
    cases hg : GetOptionByName options [c] with
    | error e => exact hrefl _
    | ok found =>
      obtain ⟨p, opt⟩ := found
      have hget := (GetOptionByName_ok options [c] p opt hg).1
      simp only
      split
      · have h1 := hcall options mem p opt (d :: more) hget
        cases hcp : callParseValue options mem p opt (d :: more) with
        | mk om err =>
          obtain ⟨o, m⟩ := om
          rw [hcp] at h1
          cases err <;> exact h1
      · have h1 := clusterLoop_rel R hrefl htrans hcall (c :: d :: more) options mem
        cases hcl : clusterLoop options mem (c :: d :: more) with
        | mk om err =>
          obtain ⟨o, m⟩ := om
          rw [hcl] at h1
          cases err <;> exact h1

/-- The whole scan changes the registry and the variables through `ParseValue`
only, however it ends. -/
theorem parseLoop_rel
    (R : List Registered × Memory → List Registered × Memory → Prop) (hrefl : ∀ s, R s s)
    (htrans : ∀ s₁ s₂ s₃, R s₁ s₂ → R s₂ s₃ → R s₁ s₃)
    (hcall : ∀ options mem p ob strVal, options[p]? = some ob →
      R (options, mem) (callParseValue options mem p ob strVal).1) :
    ∀ (toks : List Str) (options : List Registered) (mem : Memory),
      R (options, mem) ((parseLoop options mem toks).options, (parseLoop options mem toks).mem)
  | [], options, mem => hrefl _
  | [key], options, mem => by
    have h1 := parseStep_rel R hrefl htrans hcall options mem key none
    rw [parseLoop_cons]
    simp only [List.head?_nil, List.tail_nil]
    cases hs : parseStep options mem key none <;> rw [hs] at h1 <;> exact h1
  | key :: v :: rest, options, mem => by
    have h1 := parseStep_rel R hrefl htrans hcall options mem key (some v)
    rw [parseLoop_cons]
    simp only [List.head?_cons, List.tail_cons]
    cases hs : parseStep options mem key (some v) with
    | next o m =>
      rw [hs] at h1
      exact htrans _ _ _ h1 (parseLoop_rel R hrefl htrans hcall (v :: rest) o m)
    | skip o m =>
      rw [hs] at h1
      exact htrans _ _ _ h1 (parseLoop_rel R hrefl htrans hcall rest o m)
    | stop o m => rw [hs] at h1; exact h1
    | thrown e o m => rw [hs] at h1; exact h1
    | nullArg o m => rw [hs] at h1; exact h1

theorem parsedFrom_callParseValue (options : List Registered) (mem : Memory) (p : Nat)
    (ob : Registered) (strVal : Str) (hget : options[p]? = some ob) :
    List.Forall₂ Registered.ParsedFrom options (callParseValue options mem p ob strVal).1.1 :=
  parsedFrom_list_set options p ob _ hget (ParsedFrom_ParseValue ob mem strVal)

/-- The whole scan changes descriptors through `ParseValue` only, however it
ends. -/
theorem parsedFrom_parseLoop (toks : List Str) (options : List Registered) (mem : Memory) :
    List.Forall₂ Registered.ParsedFrom options (parseLoop options mem toks).options :=
  parseLoop_rel (fun s s' => List.Forall₂ Registered.ParsedFrom s.1 s'.1)
    (fun s => parsedFrom_list_refl s.1) (fun _ _ _ h₁ h₂ => parsedFrom_list_trans h₁ h₂)
    (fun options mem p ob strVal hget => parsedFrom_callParseValue options mem p ob strVal hget)
    toks options mem

/-! ### The variable at one address across the scan -/

/-- C19. Descriptor state across a parse pass: whatever the tokens and however
`Parse` ends, the descriptor at each position is still there, of the same
type, with `is_set` true if it was true before, and with `is_set` true if its
value differs from the one it had before. -/
theorem parse_keeps_is_set (options : List Registered) (mem : Memory) (argv : List Str)
    (i : Nat) (ob : Registered) (hget : options[i]? = some ob) :
    ∃ ob', (Parse options mem argv).options[i]? = some ob' ∧ ob'.T = ob.T ∧
      (ob.opt.is_set = true → ob'.opt.is_set = true) ∧
      (¬ HEq ob'.opt.value ob.opt.value → ob'.opt.is_set = true) := by
  obtain ⟨ob', hget', hpf⟩ :=
    parsedFrom_list_get (parsedFrom_parseLoop (argv.drop 1) options mem) i ob hget
  refine ⟨ob', hget', ?_, ?_, ?_⟩
  · rcases hpf with rfl | ⟨v, rfl⟩ <;> rfl
  · intro hset
    rcases hpf with rfl | ⟨v, rfl⟩
    · exact hset
    · rfl
  · intro hne
    rcases hpf with rfl | ⟨v, rfl⟩
    · exact absurd HEq.rfl hne
    · rfl

/-- C19 on a pass that sets `x` and then throws on `-x abc`. -/
theorem parse_keeps_is_set_witness :
    ∃ ob', (Parse [Registered.ofInt (intOption "x".toList OptionArg.REQ)] noVariables
        ["prog".toList, "-x".toList, "10".toList, "-x".toList, "abc".toList]).options[0]? =
          some ob' ∧
      ob'.T = Int ∧ ((intOption "x".toList OptionArg.REQ).is_set = true → ob'.opt.is_set = true) ∧
      (¬ HEq ob'.opt.value (intOption "x".toList OptionArg.REQ).value → ob'.opt.is_set = true) :=
  parse_keeps_is_set [Registered.ofInt (intOption "x".toList OptionArg.REQ)] noVariables
    ["prog".toList, "-x".toList, "10".toList, "-x".toList, "abc".toList] 0
    (Registered.ofInt (intOption "x".toList OptionArg.REQ)) rfl

/-! ## Positions of the scan: ignored tokens, failing tokens -/

/-- An iteration that ends without consuming, stopping or throwing does not
depend on the token that follows. -/
theorem parseStep_next_lookahead (options o : List Registered) (mem m : Memory) (key : Str)
    (n₁ n₂ : Option Str) (h : parseStep options mem key n₁ = .next o m) :
    parseStep options mem key n₂ = .next o m := by
  rcases token_shapes key with hs | hs | ⟨name, hne, hs⟩ | ⟨c, hc, hs⟩ | ⟨c, d, more, hc, hs⟩
  · rw [parseStep_ignored options mem key _ hs] at h ⊢
    exact h
  · subst hs
    rw [parseStep_terminator] at h
    cases h
  · subst hs
    by_cases heq : '=' ∈ name
    · rw [parseStep_long_equals options mem name _ heq] at h ⊢
      exact h
    · rw [parseStep_long_plain options mem name _ hne heq] at h ⊢
      cases hg : GetOptionByName options name with
      | error e => rw [hg] at h; cases h
      | ok found =>
        obtain ⟨p, opt⟩ := found
        rw [hg] at h
        simp only at h ⊢
        by_cases harg : opt.opt.arg = OptionArg.NONE
        · simp only [harg, bne_self_eq_false, Bool.false_eq_true, ↓reduceIte] at h ⊢
          exact h
        · have hb : (opt.opt.arg != OptionArg.NONE) = true := by simpa using harg
          simp only [hb, ↓reduceIte] at h
          cases n₁ with
          | none => cases h
          | some val =>
            simp only at h
            cases hcp : callParseValue options mem p opt val with
            | mk om1 err =>
              obtain ⟨o1, m1⟩ := om1
              rw [hcp] at h
              cases err with
              | some e => cases h
              | none =>
                simp only at h
                cases hl : lookupParseValue o1 m1 name val with
                | mk om2 err2 =>
                  obtain ⟨o2, m2⟩ := om2
                  rw [hl] at h
                  cases err2 <;> cases h
  · subst hs
    rw [parseStep_short_single options mem c _ hc] at h
    cases hg : GetOptionByName options [c] with
    | error e => rw [hg] at h; cases h
    | ok found =>
      obtain ⟨p, opt⟩ := found
      rw [hg] at h
      cases n₁ with
      | none => cases h
      | some val =>
        simp only at h
        cases hcp : callParseValue options mem p opt val with
        | mk om1 err =>
          obtain ⟨o1, m1⟩ := om1
          rw [hcp] at h
          cases err <;> cases h
  · subst hs
    rw [parseStep_short_multi options mem c d more _ hc] at h ⊢
    exact h

/-- Removing a token the loop passes over does not change the scan. -/
theorem parseLoop_eraseIdx_ignored :
    ∀ (k : Nat) (toks : List Str) (options mid : List Registered) (mem midMem : Memory)
      (t : Str),
      stateAt options mem toks k = some (mid, midMem) → toks[k]? = some t →
      (t.length = 1 ∨ t.head? ≠ some '-') →
      parseLoop options mem (toks.eraseIdx k) = parseLoop options mem toks
  | 0, [], options, mid, mem, midMem, t, _, ht, _ => by simp at ht
  | 0, key :: rest, options, mid, mem, midMem, t, _, ht, hign => by
    simp only [List.getElem?_cons_zero, Option.some.injEq] at ht
    subst ht
    rw [List.eraseIdx_cons_zero, parseLoop_cons, parseStep_ignored options mem key _ hign]
  | k + 1, [], options, mid, mem, midMem, t, _, ht, _ => by simp at ht
  | k + 1, key :: rest, options, mid, mem, midMem, t, h, ht, hign => by
    simp only [List.getElem?_cons_succ] at ht
    rw [List.eraseIdx_cons_succ, parseLoop_cons, parseLoop_cons options mem key rest]
    simp only [stateAt] at h
    cases hs : parseStep options mem key rest.head? with
    | next o m =>
      rw [hs] at h
      rw [parseStep_next_lookahead options o mem m key _ (rest.eraseIdx k).head? hs]
      exact parseLoop_eraseIdx_ignored k rest o mid m midMem t h ht hign
    | skip o m =>
      rw [hs] at h
      cases k with
      | zero => simp at h
      | succ k =>
        simp only at h
        cases rest with
        | nil => simp at ht
        | cons v rest' =>
          simp only [List.getElem?_cons_succ] at ht
          simp only [List.eraseIdx_cons_succ, List.head?_cons, List.tail_cons] at hs h ⊢
          rw [hs]
          exact parseLoop_eraseIdx_ignored k rest' o mid m midMem t h ht hign
    | stop o m => rw [hs] at h; simp at h
    | thrown e o m => rw [hs] at h; simp at h
    | nullArg o m => rw [hs] at h; simp at h

/-- C18. Ignored tokens: a token that is exactly `-`, or that does not start
with `-`, standing at a position where the loop classifies it (`stateAt` is
defined there: it was not consumed as the value of the option before it, and
the scan did not end earlier), can be removed without changing the outcome of
`Parse`, exit and final state of every descriptor and of every variable of
the caller. -/
theorem parse_ignored_token_removed (options mid : List Registered) (mem midMem : Memory)
    (prog : Str) (toks : List Str) (k : Nat) (t : Str)
    (hstate : stateAt options mem toks k = some (mid, midMem))
    (ht : toks[k]? = some t) (hign : t = ['-'] ∨ t.head? ≠ some '-') :
    Parse options mem (prog :: toks.eraseIdx k) = Parse options mem (prog :: toks) := by
  simp only [Parse, List.drop_succ_cons, List.drop_zero]
  refine parseLoop_eraseIdx_ignored k toks options mid mem midMem t hstate ht ?_
  rcases hign with rfl | h
  · exact Or.inl rfl
  · exact Or.inr h

/-- C18 on `-x 10 file -x 20`: the token `file` can be removed. -/
theorem parse_ignored_token_removed_witness :
    Parse [Registered.ofInt (intOption "x".toList OptionArg.REQ)] noVariables
        ["prog".toList, "-x".toList, "10".toList, "-x".toList, "20".toList] =
      Parse [Registered.ofInt (intOption "x".toList OptionArg.REQ)] noVariables
        ["prog".toList, "-x".toList, "10".toList, "file".toList, "-x".toList, "20".toList] :=
  parse_ignored_token_removed [Registered.ofInt (intOption "x".toList OptionArg.REQ)]
    [Registered.ofInt { intOption "x".toList OptionArg.REQ with value := 10, is_set := true }]
    noVariables noVariables "prog".toList ["-x".toList, "10".toList, "file".toList, "-x".toList, "20".toList] 2
    "file".toList rfl rfl (Or.inr (by decide))


/-- The test `TEST(Parse, ShortNameBind)`: `x = 0` bound to the option `x`, and
after `-x 10` the option and the variable hold 10. -/
theorem test_Parse_ShortNameBind :
    Parse [Registered.ofInt ((intOption "x".toList OptionArg.REQ).Bind 0)] intAtZero
        ["program.exe".toList, "-x".toList, "10".toList] =
      ⟨.returned, [Registered.ofInt
        { (intOption "x".toList OptionArg.REQ).Bind 0 with value := 10, is_set := true }],
        intAtZero.write 0 ⟨Int, (10 : Int)⟩⟩ ∧
    (intAtZero.write 0 ⟨Int, (10 : Int)⟩) 0 = some ⟨Int, (10 : Int)⟩ :=
  ⟨rfl, rfl⟩

end OptionParser
